import Mathlib

/-!
Verification of the ftrace call-trace symbolizer (`ftrace.py`).

Strings are modelled as `List Char` (`Str`).  Python's class-level mutable
attributes of `ParsedInputFile` are modelled by threading the shared state
explicitly.  Python's unbounded recursion is modelled with an explicit fuel
parameter; every theorem about a successful run is stated either for all fuel
values or conditioned on the run returning `some`.
-/

set_option maxRecDepth 10000

abbrev Str := List Char

/-- Python `list[i]` for a non-negative index: `some` element or `none`
(IndexError). -/
def pyGet : List α → Nat → Option α
  | [], _ => none
  | x :: _, 0 => some x
  | _ :: xs, n + 1 => pyGet xs n

/-- Python `str.lstrip()`: drop leading whitespace. -/
def pyLstrip (s : Str) : Str := s.dropWhile Char.isWhitespace

/-- Python `str.rstrip()`: drop trailing whitespace. -/
def pyRstrip (s : Str) : Str := (s.reverse.dropWhile Char.isWhitespace).reverse

/-- Python `str.strip()`. -/
def pyStrip (s : Str) : Str := pyRstrip (pyLstrip s)

/-- Python `str.strip('()')`: drop `(` and `)` characters from both ends. -/
def stripParens (s : Str) : Str :=
  ((s.dropWhile (fun c => c = '(' ∨ c = ')')).reverse.dropWhile
      (fun c => c = '(' ∨ c = ')')).reverse

/-- Python `s.split(' ', 1)` when it yields two parts; `none` when `s` has no
space (unpacking then raises ValueError). -/
def splitFirstSpace : Str → Option (Str × Str)
  | [] => none
  | c :: rest =>
    if c = ' ' then some ([], rest)
    else
      match splitFirstSpace rest with
      | none => none
      | some (a, b) => some (c :: a, b)

/-- Python `list[i]` for a possibly negative index (negative indices address
from the end; out-of-range raises IndexError, modelled as `none`). -/
def pyIndex (l : List α) (i : Int) : Option α :=
  let n : Int := l.length
  let j : Int := if i < 0 then n + i else i
  if 0 ≤ j ∧ j < n then pyGet l j.toNat else none

/-- `split_input_line(line)`: returns `(depth, addr, module)`, with
`depth = int(1 + indentation_count / 2)`; `none` models the ValueError raised
when the de-indented line has no space separator. -/
def split_input_line (line : Str) : Option (Nat × Str × Str) :=
  let line_without_indentation := pyLstrip line
  let indentation_count := line.length - line_without_indentation.length
  let depth := 1 + indentation_count / 2
  match splitFirstSpace line_without_indentation with
  | none => none
  | some (addr, cdr) => some (depth, addr, stripParens (pyStrip cdr))

/-- `CallSite`: depth, address, module (the `ModuleAddress` pair is inlined),
and the ordered list of child calls. -/
inductive CallSite where
  | mk (depth : Nat) (address : Str) (module : Str) (child_calls : List CallSite) : CallSite

def CallSite.depth : CallSite → Nat
  | .mk d _ _ _ => d

def CallSite.address : CallSite → Str
  | .mk _ a _ _ => a

def CallSite.module : CallSite → Str
  | .mk _ _ m _ => m

def CallSite.child_calls : CallSite → List CallSite
  | .mk _ _ _ ch => ch

/-- `Subsite s c`: the call site `s` occurs in the subtree rooted at `c`
(including `c` itself). -/
inductive Subsite : CallSite → CallSite → Prop where
  | refl (c : CallSite) : Subsite c c
  | step (s c : CallSite) (d : Nat) (a m : Str) (ch : List CallSite) :
      c ∈ ch → Subsite s c → Subsite s (.mk d a m ch)

/-- The structural depth invariant of a constructed tree: every child is
strictly deeper than its parent (no fixed step size is guaranteed). -/
inductive SiteInv : CallSite → Prop where
  | intro (d : Nat) (a m : Str) (ch : List CallSite)
      (hd : ∀ c ∈ ch, d < c.depth) (hc : ∀ c ∈ ch, SiteInv c) :
      SiteInv (.mk d a m ch)

/-- Well-formed indentation: a site below a parent of depth `pd` has depth
`pd + 1`, recursively (roots are well formed at `pd = 0`). -/
inductive WFSite : Nat → CallSite → Prop where
  | intro (pd : Nat) (a m : Str) (ch : List CallSite)
      (hch : ∀ c ∈ ch, WFSite (pd + 1) c) : WFSite pd (.mk (pd + 1) a m ch)

/-- `addresses_by_module`: insertion-ordered dict from module name to the
set of unique addresses, the set kept as an insertion-ordered duplicate-free
list. -/
abbrev AddrMap := List (Str × List Str)

/-- Python `set.add`. -/
def setAdd (s : List Str) (a : Str) : List Str := if a ∈ s then s else s ++ [a]

/-- `update_global_address_map(parsed_input_file, addr, module)` acting on the
`addresses_by_module` component. -/
def update_global_address_map : AddrMap → Str → Str → AddrMap
  | [], addr, module => [(module, [addr])]
  | (m, s) :: rest, addr, module =>
    if m = module then (m, setAdd s addr) :: rest
    else (m, s) :: update_global_address_map rest addr module

/-- Python dict lookup `d[k]` on an insertion-ordered association list
(`none` models KeyError).  Keys are unique in every dict this program
builds. -/
def dictGet : List (Str × α) → Str → Option α
  | [], _ => none
  | (k, v) :: rest, key => if k = key then some v else dictGet rest key

/-- Two-level dict lookup `d[k1][k2]`. -/
def dictGet2 (t : List (Str × List (Str × α))) (k1 k2 : Str) : Option α :=
  match dictGet t k1 with
  | none => none
  | some inner => dictGet inner k2

/-- Python dict assignment `d[k] = v`: replace the binding if the key exists,
otherwise append it. -/
def dictInsert : List (Str × α) → Str → α → List (Str × α)
  | [], k, v => [(k, v)]
  | (k1, v1) :: rest, k, v =>
    if k1 = k then (k, v) :: rest else (k1, v1) :: dictInsert rest k v

/-- `(module, addr)` is recorded in the address map. -/
def memAM (am : AddrMap) (module addr : Str) : Prop :=
  ∃ s, dictGet am module = some s ∧ addr ∈ s

/-- Per-module symbol table: address to `(symbol, source_line)`. -/
abbrev ModTable := List (Str × (Str × Str))

/-- `symbol_table`: module to per-module table. -/
abbrev SymTable := List (Str × ModTable)

/-- `ParsedInputFile`.  In the Python source `call_tree`,
`addresses_by_module` and `symbol_table` are class-level mutable objects, so
every function below threads the shared state explicitly. -/
structure ParsedInputFile where
  call_tree : List CallSite
  addresses_by_module : AddrMap
  symbol_table : SymTable

def emptyParsed : ParsedInputFile := ⟨[], [], []⟩

/-- `is_excluded(symbol, source_line)`: a compiled regex pattern is modelled
abstractly as its (anchored) match predicate. -/
def is_excluded (excluded_symbols : List (Str → Bool)) (symbol source_line : Str) : Bool :=
  excluded_symbols.any (fun pattern => pattern symbol || pattern source_line)

/-- `is_module_excluded(module)`. -/
def is_module_excluded (excluded_modules : List (Str → Bool)) (module : Str) : Bool :=
  excluded_modules.any (fun pattern => pattern module)

mutual
/-- `parse_call_site_tree(input_lines, input_index, parsed_input_file)`,
acting on the `addresses_by_module` component and returning
`(call_site, input_index)`.  The first `Nat` is recursion fuel (the Python
recursion is unbounded); `none` also models an uncaught exception from
`split_input_line`. -/
def parse_call_site_tree : Nat → List Str → Nat → AddrMap → Option (CallSite × Nat × AddrMap)
  | 0, _, _, _ => none
  | fuel + 1, input_lines, input_index, am =>
    match pyGet input_lines input_index with
    | none => none
    | some line =>
      match split_input_line line with
      | none => none
      | some (original_depth, addr, module) =>
        parse_children fuel input_lines (input_index + 1)
          (update_global_address_map am addr module) original_depth addr module []

/-- The `while` loop of `parse_call_site_tree`: look at the next line; a line
at depth `≤ original_depth` (or exhausted input) ends the children list,
otherwise the line is parsed recursively and appended to `child_calls`. -/
def parse_children : Nat → List Str → Nat → AddrMap → Nat → Str → Str → List CallSite →
    Option (CallSite × Nat × AddrMap)
  | 0, _, _, _, _, _, _, _ => none
  | fuel + 1, input_lines, input_index, am, original_depth, addr, module, acc =>
    match pyGet input_lines input_index with
    | none => some (CallSite.mk original_depth addr module acc, input_index, am)
    | some line =>
      match split_input_line line with
      | none => none
      | some (depth, _, _) =>
        if depth ≤ original_depth then
          some (CallSite.mk original_depth addr module acc, input_index, am)
        else
          match parse_call_site_tree fuel input_lines input_index am with
          | none => none
          | some (child_call_site, i2, am2) =>
            parse_children fuel input_lines i2 am2 original_depth addr module
              (acc ++ [child_call_site])
end

/-- The `while` loop of `parse_input_file`: repeatedly parse a root call site
until all lines are consumed. -/
def parse_input_file_loop : Nat → List Str → Nat → List CallSite → AddrMap →
    Option (List CallSite × AddrMap)
  | 0, _, _, _, _ => none
  | fuel + 1, input_lines, input_index, call_tree, am =>
    if input_index < input_lines.length then
      match parse_call_site_tree fuel input_lines input_index am with
      | none => none
      | some (call_site, i2, am2) =>
        parse_input_file_loop fuel input_lines i2 (call_tree ++ [call_site]) am2
    else some (call_tree, am)

/-- `parse_input_file(input_lines)`.  `st` is the shared class-level state of
`ParsedInputFile` as it stands when the call is made: the roots and address
sets already accumulated there are extended, not replaced. -/
def parse_input_file (st : ParsedInputFile) (input_lines : List Str) : Option ParsedInputFile :=
  match parse_input_file_loop (3 * input_lines.length + 3) input_lines 0
      st.call_tree st.addresses_by_module with
  | none => none
  | some (ct, am) => some ⟨ct, am, st.symbol_table⟩

/-- `apply_module_filters(parsed_input_file)`: keep only roots whose module is
not excluded, and only address-map entries whose module is not excluded. -/
def apply_module_filters (excluded_modules : List (Str → Bool)) (p : ParsedInputFile) :
    ParsedInputFile :=
  { p with
    call_tree := p.call_tree.filter (fun x => !is_module_excluded excluded_modules x.module)
    addresses_by_module :=
      p.addresses_by_module.filter (fun x => !is_module_excluded excluded_modules x.1) }

/-- The `while end < len(lines) and lines[end].strip() != ''` scan, expressed
on the suffix `lines.drop start`: advance `end` past the leading non-blank
lines. -/
def find_blank_from : List Str → Nat → Nat
  | [], e => e
  | l :: rest, e => if pyStrip l = [] then e else find_blank_from rest (e + 1)

/-- `get_output_line_range(lines, start)`. -/
def get_output_line_range (lines : List Str) (start : Nat) : Nat × Nat :=
  (start, find_blank_from (lines.drop start) start)

/-- The demultiplexing loop of `run_llvm_symbolizer` for one module:
`for input_addr in addrs` over `stdout_lines`, starting at `output_index`.
For each address it takes the next blank-terminated segment and keeps
`stdout_lines[end-2]` and `stdout_lines[end-1]` (Python indexing: negative
indices wrap to the end of the list, out-of-range raises IndexError =
`none`). -/
def symbolize_module (stdout_lines : List Str) : List Str → Nat → Option ModTable
  | [], _ => some []
  | input_addr :: rest, output_index =>
    let r := get_output_line_range stdout_lines output_index
    match pyIndex stdout_lines ((r.2 : Int) - 2), pyIndex stdout_lines ((r.2 : Int) - 1) with
    | some symbol, some source_line =>
      match symbolize_module stdout_lines rest (r.2 + 1) with
      | some tbl => some ((input_addr, (symbol, source_line)) :: tbl)
      | none => none
    | _, _ => none

/-- The per-module loop of `run_llvm_symbolizer`: one symbolizer invocation
per entry of `addresses_by_module`, each result stored under
`symbol_table[module]`.  `responses` gives, per module, the stdout lines the
external process produced. -/
def symbolize_all (responses : Str → List Str) : AddrMap → SymTable → Option SymTable
  | [], tbl => some tbl
  | (module, addrs) :: rest, tbl =>
    match symbolize_module (responses module) addrs 0 with
    | none => none
    | some mtbl => symbolize_all responses rest (dictInsert tbl module mtbl)

/-- `run_llvm_symbolizer(parsed_input_file)` (the dead local `should_skip`
and `count` of the source are omitted: they are never used). -/
def run_llvm_symbolizer (responses : Str → List Str) (p : ParsedInputFile) :
    Option ParsedInputFile :=
  match symbolize_all responses p.addresses_by_module p.symbol_table with
  | none => none
  | some tbl => some { p with symbol_table := tbl }

/-- The rendered text of one node: `'{}{} ({})'.format(' ' * indent, symbol,
source_line)`. -/
def fmtLine (indent : Nat) (symbol source_line : Str) : Str :=
  List.replicate indent ' ' ++ symbol ++ (' ' :: '(' :: (source_line ++ [')']))

/-- One level of `print_call_tree`: the `for call_site in call_tree` loop.
`f` renders a child forest (one nesting level deeper).  `none` models the
KeyError raised when `symbol_table[module][address]` is missing. -/
def print_call_tree_list (f : List CallSite → Option (List Str)) (tbl : SymTable)
    (excluded_symbols : List (Str → Bool)) (depth_limit : Nat) :
    List CallSite → Option (List Str)
  | [] => some []
  | CallSite.mk depth address module ch :: rest =>
    match dictGet2 tbl module address with
    | none => none
    | some (symbol, source_line) =>
      if is_excluded excluded_symbols symbol source_line then
        print_call_tree_list f tbl excluded_symbols depth_limit rest
      else
        match (if depth < depth_limit ∨ depth_limit = 0 then f ch else some []) with
        | none => none
        | some sub =>
          match print_call_tree_list f tbl excluded_symbols depth_limit rest with
          | none => none
          | some rout =>
            some (fmtLine ((depth - 1) * 2) symbol source_line :: (sub ++ rout))

/-- `print_call_tree(parsed_input_file, call_tree)` with recursion fuel: the
fuel only bounds the nesting depth descended into (siblings cost nothing), so
any fuel at least the forest height renders exactly what the Python code
prints.  (At fuel 0 an empty forest still renders to nothing: no recursion is
needed for it.) -/
def print_call_tree (tbl : SymTable) (excluded_symbols : List (Str → Bool))
    (depth_limit : Nat) : Nat → List CallSite → Option (List Str)
  | 0 => fun forest => match forest with | [] => some [] | _ :: _ => none
  | fuel + 1 => print_call_tree_list
      (print_call_tree tbl excluded_symbols depth_limit fuel) tbl excluded_symbols depth_limit

/-- The `__main__` flow: parse, filter modules, run the symbolizer. -/
def pipeline (excluded_modules : List (Str → Bool)) (responses : Str → List Str)
    (input_lines : List Str) : Option ParsedInputFile :=
  match parse_input_file emptyParsed input_lines with
  | none => none
  | some st => run_llvm_symbolizer responses (apply_module_filters excluded_modules st)

/-- One `update_global_address_map` step for one raw line (used to state what
the parser accumulates; lines that fail to decode change nothing — a real run
would have aborted on them). -/
def updLine (am : AddrMap) (line : Str) : AddrMap :=
  match split_input_line line with
  | some (_, addr, module) => update_global_address_map am addr module
  | none => am

/-- The address map obtained by decoding a list of lines in order. -/
def updFold (am : AddrMap) (ls : List Str) : AddrMap := ls.foldl updLine am

/-- Modelled from the spec: the depth-truncated forest — every node whose
depth exceeds a positive limit is beyond the horizon and removed together
with its subtree; limit 0 keeps everything. -/
def truncSpec (depth_limit : Nat) : List CallSite → List CallSite
  | [] => []
  | CallSite.mk d a m ch :: rest =>
    if depth_limit = 0 ∨ d ≤ depth_limit then
      CallSite.mk d a m (truncSpec depth_limit ch) :: truncSpec depth_limit rest
    else truncSpec depth_limit rest

/-- A synthetic symbolizer response: for each requested address one segment
`body ++ [symbol, source_line]` followed by its blank-line terminator. -/
def flattenSegs : List (List Str × Str × Str) → List Str
  | [] => []
  | t :: rest => t.1 ++ [t.2.1, t.2.2] ++ ([] : Str) :: flattenSegs rest

/-- A two-line trace whose second line jumps `k` depth levels at once. -/
def jump_lines (k : Nat) : List Str :=
  ["0xA (mod1)".data, List.replicate (2 * k) ' ' ++ "0xB (mod1)".data]

/-! ### Basic lemmas about the helper functions -/

theorem pyGet_eq_getElem? (l : List α) (n : Nat) : pyGet l n = l[n]? := by
  induction l generalizing n with
  | nil => cases n <;> rfl
  | cons x xs ih => cases n with
    | zero => simp [pyGet]
    | succ k => simpa [pyGet] using ih k

theorem pyGet_some_lt {l : List α} {n : Nat} {x : α} (h : pyGet l n = some x) :
    n < l.length := by
  rw [pyGet_eq_getElem?] at h
  by_contra hn
  rw [List.getElem?_eq_none (by omega)] at h
  exact Option.noConfusion h

theorem mem_iff_pyGet {l : List α} {x : α} : x ∈ l ↔ ∃ n, pyGet l n = some x := by
  simp only [pyGet_eq_getElem?]
  exact List.mem_iff_getElem?

/-- The contiguous block of lines with indices in `[i, j)`. -/
def lineSeg (lines : List Str) (i j : Nat) : List Str := (lines.drop i).take (j - i)

theorem lineSeg_self (lines : List Str) (i : Nat) : lineSeg lines i i = [] := by
  simp [lineSeg]

theorem lineSeg_one {lines : List Str} {i : Nat} {line : Str}
    (h : pyGet lines i = some line) : lineSeg lines i (i + 1) = [line] := by
  have h1 : (lines.drop i)[0]? = some line := by
    rw [List.getElem?_drop]
    rw [pyGet_eq_getElem?] at h
    simpa using h
  unfold lineSeg
  cases hd : lines.drop i with
  | nil => rw [hd] at h1; exact Option.noConfusion h1
  | cons y ys =>
    rw [hd] at h1
    simp at h1
    simp [h1]

theorem lineSeg_append {lines : List Str} {i j k : Nat} (h1 : i ≤ j) (h2 : j ≤ k) :
    lineSeg lines i k = lineSeg lines i j ++ lineSeg lines j k := by
  unfold lineSeg
  have hk : k - i = (j - i) + (k - j) := by omega
  rw [hk, List.take_add, List.drop_drop]
  have : i + (j - i) = j := by omega
  rw [this]

theorem pyGet_lineSeg {lines : List Str} {i j n : Nat} (hi : i ≤ n) (hj : n < j) :
    pyGet (lineSeg lines i j) (n - i) = pyGet lines n := by
  rw [pyGet_eq_getElem?, pyGet_eq_getElem?, lineSeg, List.getElem?_take,
    if_pos (by omega), List.getElem?_drop]
  congr 1
  omega

theorem mem_lineSeg_iff {lines : List Str} {i j : Nat} {line : Str} :
    line ∈ lineSeg lines i j ↔ ∃ n, i ≤ n ∧ n < j ∧ pyGet lines n = some line := by
  constructor
  · intro hm
    rw [mem_iff_pyGet] at hm
    obtain ⟨n, hn⟩ := hm
    have hlt : n < j - i := by
      have := pyGet_some_lt hn
      simp only [lineSeg, List.length_take, List.length_drop] at this
      omega
    refine ⟨i + n, by omega, by omega, ?_⟩
    rw [← pyGet_lineSeg (i := i) (j := j) (by omega) (by omega)]
    simpa using hn
  · rintro ⟨n, h1, h2, h3⟩
    rw [mem_iff_pyGet]
    exact ⟨n - i, by rw [pyGet_lineSeg h1 h2]; exact h3⟩

theorem mem_setAdd {s : List Str} {a x : Str} : x ∈ setAdd s a ↔ x ∈ s ∨ x = a := by
  unfold setAdd
  by_cases h : a ∈ s
  · simp only [if_pos h]
    constructor
    · exact Or.inl
    · rintro (hx | rfl)
      · exact hx
      · exact h
  · simp [if_neg h]

theorem setAdd_nodup {s : List Str} {a : Str} (h : s.Nodup) : (setAdd s a).Nodup := by
  unfold setAdd
  by_cases hm : a ∈ s
  · simpa [if_pos hm] using h
  · simp only [if_neg hm]
    simpa [List.nodup_append] using ⟨h, hm⟩

theorem dictGet_mem {am : List (Str × α)} {m : Str} {v : α} (h : dictGet am m = some v) :
    (m, v) ∈ am := by
  induction am with
  | nil => exact Option.noConfusion h
  | cons p rest ih =>
    obtain ⟨k, w⟩ := p
    by_cases hk : k = m
    · subst hk
      simp only [dictGet, if_pos rfl] at h
      cases h
      exact List.mem_cons_self _ _
    · simp only [dictGet, if_neg hk] at h
      exact List.mem_cons_of_mem _ (ih h)

theorem dictGet_of_mem_keys {t : List (Str × α)} {m : Str}
    (h : m ∈ t.map Prod.fst) : ∃ v, dictGet t m = some v := by
  induction t with
  | nil => simp at h
  | cons p rest ih =>
    obtain ⟨k, w⟩ := p
    by_cases hk : k = m
    · exact ⟨w, by simp [dictGet, hk]⟩
    · simp only [List.map_cons, List.mem_cons] at h
      rcases h with h | h
      · exact absurd h.symm hk
      · simpa [dictGet, hk] using ih h

theorem dictGet_dictInsert_self (t : List (Str × α)) (k : Str) (v : α) :
    dictGet (dictInsert t k v) k = some v := by
  induction t with
  | nil => simp [dictInsert, dictGet]
  | cons p rest ih =>
    obtain ⟨k1, v1⟩ := p
    by_cases hk : k1 = k
    · simp [dictInsert, dictGet, hk]
    · simp [dictInsert, dictGet, hk, ih]

theorem dictGet_dictInsert_ne (t : List (Str × α)) {k k1 : Str} (v : α) (h : k1 ≠ k) :
    dictGet (dictInsert t k v) k1 = dictGet t k1 := by
  have hk : ¬ k = k1 := fun hh => h hh.symm
  induction t with
  | nil => simp [dictInsert, dictGet, hk]
  | cons p rest ih =>
    obtain ⟨k2, v2⟩ := p
    by_cases h2 : k2 = k
    · subst h2
      simp [dictInsert, dictGet, hk]
    · simp only [dictInsert, if_neg h2, dictGet]
      by_cases h1 : k2 = k1
      · simp [h1]
      · simp [h1, ih]

/-! ### The address map accumulated by the parser -/

theorem memAM_update {am : AddrMap} {a m m1 a1 : Str} :
    memAM (update_global_address_map am a m) m1 a1 ↔
      memAM am m1 a1 ∨ (m1 = m ∧ a1 = a) := by
  induction am with
  | nil =>
    by_cases hm : m = m1
    · subst hm
      simp [memAM, update_global_address_map, dictGet, mem_setAdd, eq_comm]
    · have hne : ¬ (m1 = m ∧ a1 = a) := fun hh => hm hh.1.symm
      simp [memAM, update_global_address_map, dictGet, hm, hne]
  | cons p rest ih =>
    obtain ⟨k, s⟩ := p
    by_cases hk : k = m
    · subst hk
      by_cases h1 : k = m1
      · subst h1
        simp [memAM, update_global_address_map, dictGet, mem_setAdd, eq_comm]
      · have hne : ¬ (m1 = k ∧ a1 = a) := fun hh => h1 hh.1.symm
        simp [memAM, update_global_address_map, dictGet, h1, hne]
    · by_cases h1 : k = m1
      · subst h1
        have hne : ¬ (k = m ∧ a1 = a) := fun hh => hk hh.1
        simp [memAM, update_global_address_map, dictGet, hk, hne]
      · simpa [memAM, update_global_address_map, dictGet, hk, h1] using ih

/-- Keys present after an update were present before, or are the new module. -/
theorem keys_update_sub {am : AddrMap} {a m x : Str}
    (h : x ∈ (update_global_address_map am a m).map Prod.fst) :
    x ∈ am.map Prod.fst ∨ x = m := by
  induction am with
  | nil => simpa [update_global_address_map] using h
  | cons p rest ih =>
    obtain ⟨k, s⟩ := p
    by_cases hk : k = m
    · subst hk
      simp only [update_global_address_map, if_pos rfl, List.map_cons] at h
      exact Or.inl h
    · simp only [update_global_address_map, if_neg hk, List.map_cons, List.mem_cons] at h ⊢
      rcases h with h | h
      · exact Or.inl (Or.inl h)
      · rcases ih h with h1 | h1
        · exact Or.inl (Or.inr h1)
        · exact Or.inr h1

/-- The invariant of `addresses_by_module`: module keys are unique and each
module's address set is duplicate-free. -/
def AMGood (am : AddrMap) : Prop :=
  (am.map Prod.fst).Nodup ∧ ∀ p ∈ am, p.2.Nodup

theorem AMGood_update {am : AddrMap} {a m : Str} (h : AMGood am) :
    AMGood (update_global_address_map am a m) := by
  obtain ⟨hkeys, hvals⟩ := h
  induction am with
  | nil =>
    refine ⟨by simp [update_global_address_map], ?_⟩
    intro p hp
    simp only [update_global_address_map, List.mem_singleton] at hp
    rw [hp]
    simp
  | cons q rest ih =>
    obtain ⟨k, s⟩ := q
    simp only [List.map_cons, List.nodup_cons] at hkeys
    by_cases hk : k = m
    · subst hk
      have heq : update_global_address_map ((k, s) :: rest) a k = (k, setAdd s a) :: rest := by
        simp [update_global_address_map]
      rw [heq]
      refine ⟨?_, ?_⟩
      · simpa [List.nodup_cons] using hkeys
      · intro p hp
        rcases List.mem_cons.1 hp with hp1 | hp1
        · rw [hp1]
          exact setAdd_nodup (hvals (k, s) (List.mem_cons_self _ _))
        · exact hvals p (List.mem_cons_of_mem _ hp1)
    · have heq : update_global_address_map ((k, s) :: rest) a m =
          (k, s) :: update_global_address_map rest a m := by
        simp [update_global_address_map, hk]
      rw [heq]
      have hrest := ih hkeys.2 (fun p hp => hvals p (List.mem_cons_of_mem _ hp))
      refine ⟨?_, ?_⟩
      · simp only [List.map_cons, List.nodup_cons]
        refine ⟨?_, hrest.1⟩
        intro hmem
        rcases keys_update_sub hmem with h1 | h1
        · exact hkeys.1 h1
        · exact hk h1
      · intro p hp
        rcases List.mem_cons.1 hp with hp1 | hp1
        · rw [hp1]
          exact hvals (k, s) (List.mem_cons_self _ _)
        · exact hrest.2 p hp1

theorem memAM_updFold {am : AddrMap} {ls : List Str} {m1 a1 : Str} :
    memAM (updFold am ls) m1 a1 ↔
      memAM am m1 a1 ∨ ∃ line ∈ ls, ∃ d, split_input_line line = some (d, a1, m1) := by
  induction ls generalizing am with
  | nil => simp [updFold]
  | cons l rest ih =>
    have step : updFold am (l :: rest) = updFold (updLine am l) rest := rfl
    rw [step, ih]
    constructor
    · rintro (hm | hm)
      · unfold updLine at hm
        cases hs : split_input_line l with
        | none => rw [hs] at hm; exact Or.inl hm
        | some t =>
          obtain ⟨d, a, m⟩ := t
          rw [hs] at hm
          rcases memAM_update.1 hm with hm1 | ⟨rfl, rfl⟩
          · exact Or.inl hm1
          · exact Or.inr ⟨l, List.mem_cons_self _ _, d, hs⟩
      · obtain ⟨line, hline, d, hsplit⟩ := hm
        exact Or.inr ⟨line, List.mem_cons_of_mem _ hline, d, hsplit⟩
    · rintro (hm | hm)
      · refine Or.inl ?_
        unfold updLine
        cases hs : split_input_line l with
        | none => exact hm
        | some t =>
          obtain ⟨d, a, m⟩ := t
          exact memAM_update.2 (Or.inl hm)
      · obtain ⟨line, hline, d, hsplit⟩ := hm
        rcases List.mem_cons.1 hline with rfl | hline1
        · exact Or.inl (by unfold updLine; rw [hsplit]; exact memAM_update.2 (Or.inr ⟨rfl, rfl⟩))
        · exact Or.inr ⟨line, hline1, d, hsplit⟩

theorem AMGood_updFold {am : AddrMap} {ls : List Str} (h : AMGood am) :
    AMGood (updFold am ls) := by
  induction ls generalizing am with
  | nil => exact h
  | cons l rest ih =>
    have step : updFold am (l :: rest) = updFold (updLine am l) rest := rfl
    rw [step]
    refine ih ?_
    unfold updLine
    cases hs : split_input_line l with
    | none => exact h
    | some t =>
      obtain ⟨d, a, m⟩ := t
      exact AMGood_update h

theorem updFold_append (am : AddrMap) (l1 l2 : List Str) :
    updFold am (l1 ++ l2) = updFold (updFold am l1) l2 :=
  List.foldl_append _ _ _ _

/-! ### Structure of a successful parse -/

theorem lineSeg_all (lines : List Str) : lineSeg lines 0 lines.length = lines := by
  simp [lineSeg]

/-- Progress and address-map effect of `parse_call_site_tree` /
`parse_children`: a successful call consumes the contiguous block of lines
`[i, i')` and folds exactly those lines into the address map. -/
theorem parse_state_spec : ∀ fuel : Nat,
    (∀ lines i am cs i' am',
      parse_call_site_tree fuel lines i am = some (cs, i', am') →
      i < i' ∧ i' ≤ lines.length ∧ am' = updFold am (lineSeg lines i i')) ∧
    (∀ lines i am d0 a0 m0 acc cs i' am', i ≤ lines.length →
      parse_children fuel lines i am d0 a0 m0 acc = some (cs, i', am') →
      i ≤ i' ∧ i' ≤ lines.length ∧ am' = updFold am (lineSeg lines i i')) := by
  intro fuel
  induction fuel with
  | zero =>
    constructor
    · intro lines i am cs i' am' h
      simp [parse_call_site_tree] at h
    · intro lines i am d0 a0 m0 acc cs i' am' hlen h
      simp [parse_children] at h
  | succ fuel ih =>
    obtain ⟨ihS, ihC⟩ := ih
    constructor
    · intro lines i am cs i' am' h
      rw [parse_call_site_tree] at h
      cases hg : pyGet lines i with
      | none => simp only [hg] at h; exact Option.noConfusion h
      | some line =>
        simp only [hg] at h
        cases hs : split_input_line line with
        | none => simp only [hs] at h; exact Option.noConfusion h
        | some t =>
          obtain ⟨d0, a0, m0⟩ := t
          simp only [hs] at h
          have hlt : i < lines.length := pyGet_some_lt hg
          obtain ⟨h1, h2, h3⟩ := ihC lines (i + 1) _ d0 a0 m0 [] cs i' am' (by omega) h
          refine ⟨by omega, h2, ?_⟩
          rw [h3, lineSeg_append (i := i) (j := i + 1) (k := i') (by omega) h1,
            lineSeg_one hg, updFold_append]
          congr 1
          simp [updFold, updLine, hs]
    · intro lines i am d0 a0 m0 acc cs i' am' hlen h
      rw [parse_children] at h
      cases hg : pyGet lines i with
      | none =>
        simp only [hg, Option.some.injEq, Prod.mk.injEq] at h
        obtain ⟨h1, h2, h3⟩ := h
        subst h2
        subst h3
        exact ⟨le_refl i, hlen, by simp [lineSeg_self, updFold]⟩
      | some line =>
        simp only [hg] at h
        cases hs : split_input_line line with
        | none => simp only [hs] at h; exact Option.noConfusion h
        | some t =>
          obtain ⟨d, a1, m1⟩ := t
          simp only [hs] at h
          by_cases hd : d ≤ d0
          · simp only [if_pos hd, Option.some.injEq, Prod.mk.injEq] at h
            obtain ⟨h1, h2, h3⟩ := h
            subst h2
            subst h3
            exact ⟨le_refl i, hlen, by simp [lineSeg_self, updFold]⟩
          · simp only [if_neg hd] at h
            cases hp : parse_call_site_tree fuel lines i am with
            | none => simp only [hp] at h; exact Option.noConfusion h
            | some r =>
              obtain ⟨child, i2, am2⟩ := r
              simp only [hp] at h
              obtain ⟨p1, p2, p3⟩ := ihS lines i am child i2 am2 hp
              obtain ⟨q1, q2, q3⟩ := ihC lines i2 am2 d0 a0 m0 (acc ++ [child]) cs i' am' p2 h
              refine ⟨by omega, q2, ?_⟩
              rw [q3, p3, ← updFold_append, ← lineSeg_append (by omega) q1]

/-- The top-level loop of `parse_input_file`: appends the freshly parsed roots
to the (shared) `call_tree` and folds every remaining line into the (shared)
address map. -/
theorem parse_loop_spec : ∀ fuel lines i ct am res,
    parse_input_file_loop fuel lines i ct am = some res →
    ∃ newRoots, res.1 = ct ++ newRoots ∧
      res.2 = updFold am (lineSeg lines i lines.length) ∧
      (i < lines.length → newRoots ≠ []) := by
  intro fuel
  induction fuel with
  | zero => intro lines i ct am res h; simp [parse_input_file_loop] at h
  | succ fuel ih =>
    intro lines i ct am res h
    rw [parse_input_file_loop] at h
    by_cases hi : i < lines.length
    · simp only [if_pos hi] at h
      cases hp : parse_call_site_tree fuel lines i am with
      | none => simp only [hp] at h; exact Option.noConfusion h
      | some r =>
        obtain ⟨cs, i2, am2⟩ := r
        simp only [hp] at h
        obtain ⟨p1, p2, p3⟩ := (parse_state_spec fuel).1 lines i am cs i2 am2 hp
        obtain ⟨roots2, q1, q2, q3⟩ := ih lines i2 (ct ++ [cs]) am2 res h
        refine ⟨cs :: roots2, by simpa using q1, ?_, fun _ => by simp⟩
        rw [q2, p3, ← updFold_append, ← lineSeg_append (by omega) (by omega)]
    · simp only [if_neg hi, Option.some.injEq] at h
      refine ⟨[], by simp [← h], ?_, fun hcon => absurd hcon hi⟩
      have : lines.length - i = 0 := by omega
      simp [← h, lineSeg, this, updFold]

/-- What `parse_input_file` does to the shared class-level state. -/
theorem parse_input_file_spec {st : ParsedInputFile} {lines : List Str}
    {res : ParsedInputFile} (h : parse_input_file st lines = some res) :
    ∃ newRoots, res.call_tree = st.call_tree ++ newRoots ∧
      res.addresses_by_module = updFold st.addresses_by_module lines ∧
      res.symbol_table = st.symbol_table ∧
      (lines ≠ [] → newRoots ≠ []) := by
  unfold parse_input_file at h
  cases hp : parse_input_file_loop (3 * lines.length + 3) lines 0 st.call_tree
      st.addresses_by_module with
  | none => rw [hp] at h; exact Option.noConfusion h
  | some r =>
    rw [hp] at h
    obtain ⟨newRoots, q1, q2, q3⟩ := parse_loop_spec _ lines 0 st.call_tree
      st.addresses_by_module r hp
    cases h
    refine ⟨newRoots, q1, ?_, rfl, ?_⟩
    · rw [q2, lineSeg_all]
    · intro hne
      refine q3 ?_
      cases lines with
      | nil => exact absurd rfl hne
      | cons x xs => simp

/-- Tree-shape facts about a successful parse: the produced call site decodes
the line it started at, satisfies the child-strictly-deeper invariant, and
every site of its subtree is the decoding of one of the consumed lines. -/
theorem parse_tree_spec : ∀ fuel : Nat,
    (∀ lines i am cs i' am',
      parse_call_site_tree fuel lines i am = some (cs, i', am') →
      (∃ line, pyGet lines i = some line ∧
        split_input_line line = some (cs.depth, cs.address, cs.module)) ∧
      SiteInv cs ∧
      (∀ s, Subsite s cs → ∃ j line, i ≤ j ∧ j < i' ∧ pyGet lines j = some line ∧
        split_input_line line = some (s.depth, s.address, s.module))) ∧
    (∀ lines i am d0 a0 m0 acc cs i' am',
      parse_children fuel lines i am d0 a0 m0 acc = some (cs, i', am') →
      ∃ newc, cs = CallSite.mk d0 a0 m0 (acc ++ newc) ∧
        (∀ c ∈ newc, d0 < c.depth ∧ SiteInv c) ∧
        (∀ c ∈ newc, ∀ s, Subsite s c → ∃ j line, i ≤ j ∧ j < i' ∧
          pyGet lines j = some line ∧
          split_input_line line = some (s.depth, s.address, s.module))) := by
  intro fuel
  induction fuel with
  | zero =>
    constructor
    · intro lines i am cs i' am' h
      simp [parse_call_site_tree] at h
    · intro lines i am d0 a0 m0 acc cs i' am' h
      simp [parse_children] at h
  | succ fuel ih =>
    obtain ⟨ihS, ihC⟩ := ih
    constructor
    · intro lines i am cs i' am' h
      have hstate := (parse_state_spec (fuel + 1)).1 lines i am cs i' am' h
      rw [parse_call_site_tree] at h
      cases hg : pyGet lines i with
      | none => simp only [hg] at h; exact Option.noConfusion h
      | some line =>
        simp only [hg] at h
        cases hs : split_input_line line with
        | none => simp only [hs] at h; exact Option.noConfusion h
        | some t =>
          obtain ⟨d0, a0, m0⟩ := t
          simp only [hs] at h
          obtain ⟨newc, hcs, hprops, hsub⟩ := ihC lines (i + 1) _ d0 a0 m0 [] cs i' am' h
          subst hcs
          simp only [List.nil_append] at hprops hsub ⊢
          refine ⟨⟨line, rfl, hs⟩, ?_, ?_⟩
          · exact SiteInv.intro d0 a0 m0 newc (fun c hc => (hprops c hc).1)
              (fun c hc => (hprops c hc).2)
          · intro s hsb
            cases hsb with
            | refl => exact ⟨i, line, le_refl i, hstate.1, hg, hs⟩
            | step c _ _ _ _ hc hsc =>
              obtain ⟨j, line1, hj1, hj2, hj3, hj4⟩ := hsub c hc s hsc
              exact ⟨j, line1, by omega, hj2, hj3, hj4⟩
    · intro lines i am d0 a0 m0 acc cs i' am' h
      rw [parse_children] at h
      cases hg : pyGet lines i with
      | none =>
        simp only [hg, Option.some.injEq, Prod.mk.injEq] at h
        obtain ⟨h1, h2, h3⟩ := h
        refine ⟨[], by simp [← h1], by simp, by simp⟩
      | some line =>
        simp only [hg] at h
        cases hs : split_input_line line with
        | none => simp only [hs] at h; exact Option.noConfusion h
        | some t =>
          obtain ⟨d, a1, m1⟩ := t
          simp only [hs] at h
          by_cases hd : d ≤ d0
          · simp only [if_pos hd, Option.some.injEq, Prod.mk.injEq] at h
            obtain ⟨h1, h2, h3⟩ := h
            refine ⟨[], by simp [← h1], by simp, by simp⟩
          · simp only [if_neg hd] at h
            cases hp : parse_call_site_tree fuel lines i am with
            | none => simp only [hp] at h; exact Option.noConfusion h
            | some r =>
              obtain ⟨child, i2, am2⟩ := r
              simp only [hp] at h
              obtain ⟨pS1, pS2, pS3⟩ := (parse_state_spec fuel).1 lines i am child i2 am2 hp
              obtain ⟨qS1, qS2, qS3⟩ := (parse_state_spec fuel).2 lines i2 am2 d0 a0 m0
                (acc ++ [child]) cs i' am' pS2 h
              obtain ⟨hhead, hinv, hsubS⟩ := ihS lines i am child i2 am2 hp
              obtain ⟨newc, hcs, hprops, hsubC⟩ := ihC lines i2 am2 d0 a0 m0
                (acc ++ [child]) cs i' am' h
              have hchd : child.depth = d := by
                obtain ⟨line1, hline1, hsplit1⟩ := hhead
                rw [hg] at hline1
                cases hline1
                rw [hs] at hsplit1
                exact (Prod.mk.injEq _ _ _ _ ▸ Option.some.injEq _ _ ▸ hsplit1).1.symm
              refine ⟨child :: newc, ?_, ?_, ?_⟩
              · rw [hcs]
                simp
              · intro c hc
                rcases List.mem_cons.1 hc with rfl | hc1
                · exact ⟨by omega, hinv⟩
                · exact hprops c hc1
              · intro c hc s hsc
                rcases List.mem_cons.1 hc with rfl | hc1
                · obtain ⟨j, line1, hj1, hj2, hj3, hj4⟩ := hsubS s hsc
                  exact ⟨j, line1, hj1, by omega, hj3, hj4⟩
                · obtain ⟨j, line1, hj1, hj2, hj3, hj4⟩ := hsubC c hc1 s hsc
                  exact ⟨j, line1, by omega, hj2, hj3, hj4⟩

/-- Every root of a successful `parse_input_file` run either was already in
the shared `call_tree` or is a freshly parsed tree all of whose sites decode
some input line. -/
theorem parse_loop_roots : ∀ fuel lines i ct am res,
    parse_input_file_loop fuel lines i ct am = some res →
    ∀ root ∈ res.1, root ∈ ct ∨ (SiteInv root ∧
      ∀ s, Subsite s root → ∃ j line, pyGet lines j = some line ∧
        split_input_line line = some (s.depth, s.address, s.module)) := by
  intro fuel
  induction fuel with
  | zero => intro lines i ct am res h; simp [parse_input_file_loop] at h
  | succ fuel ih =>
    intro lines i ct am res h
    rw [parse_input_file_loop] at h
    by_cases hi : i < lines.length
    · simp only [if_pos hi] at h
      cases hp : parse_call_site_tree fuel lines i am with
      | none => simp only [hp] at h; exact Option.noConfusion h
      | some r =>
        obtain ⟨cs, i2, am2⟩ := r
        simp only [hp] at h
        intro root hroot
        rcases ih lines i2 (ct ++ [cs]) am2 res h root hroot with hin | hfresh
        · rcases List.mem_append.1 hin with hin1 | hin1
          · exact Or.inl hin1
          · obtain ⟨hhead, hinv, hsub⟩ := (parse_tree_spec fuel).1 lines i am cs i2 am2 hp
            rcases List.mem_singleton.1 hin1 with rfl
            refine Or.inr ⟨hinv, ?_⟩
            intro s hs
            obtain ⟨j, line, _, _, hj3, hj4⟩ := hsub s hs
            exact ⟨j, line, hj3, hj4⟩
        · exact Or.inr hfresh
    · simp only [if_neg hi, Option.some.injEq] at h
      intro root hroot
      rw [← h] at hroot
      exact Or.inl hroot

theorem parse_input_file_roots {st : ParsedInputFile} {lines : List Str}
    {res : ParsedInputFile} (h : parse_input_file st lines = some res) :
    ∀ root ∈ res.call_tree, root ∈ st.call_tree ∨ (SiteInv root ∧
      ∀ s, Subsite s root → ∃ j line, pyGet lines j = some line ∧
        split_input_line line = some (s.depth, s.address, s.module)) := by
  unfold parse_input_file at h
  cases hp : parse_input_file_loop (3 * lines.length + 3) lines 0 st.call_tree
      st.addresses_by_module with
  | none => rw [hp] at h; exact Option.noConfusion h
  | some r =>
    rw [hp] at h
    cases h
    exact parse_loop_roots _ lines 0 st.call_tree st.addresses_by_module r hp

/-! ### Module filtering -/

theorem dictGet_filter_not_excluded {pats : List (Str → Bool)} {am : AddrMap} {m : Str}
    (h : is_module_excluded pats m = false) :
    dictGet (am.filter (fun x => !is_module_excluded pats x.1)) m = dictGet am m := by
  induction am with
  | nil => rfl
  | cons p rest ih =>
    obtain ⟨k, v⟩ := p
    by_cases hk : k = m
    · subst hk
      simp [List.filter_cons, h, dictGet]
    · cases he : is_module_excluded pats k with
      | true => simp [List.filter_cons, he, dictGet, hk, ih]
      | false => simp [List.filter_cons, he, dictGet, hk, ih]

theorem dictGet_filter_excluded {pats : List (Str → Bool)} {am : AddrMap} {m : Str}
    (h : is_module_excluded pats m = true) :
    dictGet (am.filter (fun x => !is_module_excluded pats x.1)) m = none := by
  induction am with
  | nil => rfl
  | cons p rest ih =>
    obtain ⟨k, v⟩ := p
    by_cases hk : k = m
    · subst hk
      simp [List.filter_cons, h, dictGet, ih]
    · cases he : is_module_excluded pats k with
      | true => simp [List.filter_cons, he, dictGet, hk, ih]
      | false => simp [List.filter_cons, he, dictGet, hk, ih]

theorem not_mem_keys_filter {pats : List (Str → Bool)} {am : AddrMap} {m : Str}
    (h : is_module_excluded pats m = true) :
    m ∉ (am.filter (fun x => !is_module_excluded pats x.1)).map Prod.fst := by
  intro hmem
  obtain ⟨p, hp, hfst⟩ := List.mem_map.1 hmem
  have := (List.mem_filter.1 hp).2
  rw [hfst] at this
  rw [h] at this
  exact Bool.noConfusion this

/-! ### The symbolizer gateway -/

theorem symbolize_module_keys {out : List Str} : ∀ addrs oi tbl,
    symbolize_module out addrs oi = some tbl → tbl.map Prod.fst = addrs := by
  intro addrs
  induction addrs with
  | nil => intro oi tbl h; cases h; rfl
  | cons a rest ih =>
    intro oi tbl h
    rw [symbolize_module] at h
    cases h1 : pyIndex out ((find_blank_from (out.drop oi) oi : Int) - 2) with
    | none => rw [get_output_line_range] at h; simp only [h1] at h; exact Option.noConfusion h
    | some symbol =>
      cases h2 : pyIndex out ((find_blank_from (out.drop oi) oi : Int) - 1) with
      | none =>
        rw [get_output_line_range] at h
        simp only [h1, h2] at h
        exact Option.noConfusion h
      | some source_line =>
        rw [get_output_line_range] at h
        simp only [h1, h2] at h
        cases h3 : symbolize_module out rest (find_blank_from (out.drop oi) oi + 1) with
        | none => simp only [h3] at h; exact Option.noConfusion h
        | some tbl1 =>
          simp only [h3, Option.some.injEq] at h
          rw [← h]
          simpa using ih _ tbl1 h3

theorem symbolize_all_untouched {responses : Str → List Str} : ∀ amL tbl tbl',
    symbolize_all responses amL tbl = some tbl' →
    ∀ k, k ∉ amL.map Prod.fst → dictGet tbl' k = dictGet tbl k := by
  intro amL
  induction amL with
  | nil => intro tbl tbl' h k _; cases h; rfl
  | cons p rest ih =>
    intro tbl tbl' h k hk
    obtain ⟨module, addrs⟩ := p
    rw [symbolize_all] at h
    cases hm : symbolize_module (responses module) addrs 0 with
    | none => simp only [hm] at h; exact Option.noConfusion h
    | some mtbl =>
      simp only [hm] at h
      simp only [List.map_cons, List.mem_cons, not_or] at hk
      rw [ih _ _ h k hk.2]
      exact dictGet_dictInsert_ne _ _ hk.1

theorem symbolize_all_lookup {responses : Str → List Str} : ∀ amL tbl tbl',
    (amL.map Prod.fst).Nodup →
    symbolize_all responses amL tbl = some tbl' →
    ∀ m addrs, (m, addrs) ∈ amL →
      ∃ mtbl, dictGet tbl' m = some mtbl ∧ mtbl.map Prod.fst = addrs := by
  intro amL
  induction amL with
  | nil => intro tbl tbl' _ h m addrs hm; simp at hm
  | cons p rest ih =>
    intro tbl tbl' hnd h m addrs hm
    obtain ⟨module, maddrs⟩ := p
    rw [symbolize_all] at h
    cases hms : symbolize_module (responses module) maddrs 0 with
    | none => simp only [hms] at h; exact Option.noConfusion h
    | some mtbl =>
      simp only [hms] at h
      simp only [List.map_cons, List.nodup_cons] at hnd
      rcases List.mem_cons.1 hm with heq | hm1
      · cases heq
        refine ⟨mtbl, ?_, symbolize_module_keys _ _ _ hms⟩
        rw [symbolize_all_untouched rest _ _ h m hnd.1]
        exact dictGet_dictInsert_self _ _ _
      · exact ih _ _ hnd.2 h m addrs hm1

/-! ### The renderer -/

theorem print_call_tree_nil (tbl : SymTable) (excl : List (Str → Bool))
    (lim fuel : Nat) : print_call_tree tbl excl lim fuel [] = some [] := by
  cases fuel with
  | zero => rfl
  | succ fuel => rfl

/-- An excluded head call site is skipped together with its whole subtree:
rendering `c :: rest` is rendering `rest`. -/
theorem print_skip_excluded_head {tbl : SymTable} {excl : List (Str → Bool)}
    {lim fuel : Nat} {c : CallSite} {rest : List CallSite} {symbol source_line : Str}
    (hlook : dictGet2 tbl c.module c.address = some (symbol, source_line))
    (hex : is_excluded excl symbol source_line = true) :
    print_call_tree tbl excl lim (fuel + 1) (c :: rest) =
      print_call_tree tbl excl lim (fuel + 1) rest := by
  obtain ⟨d, a, m, ch⟩ := c
  simp only [CallSite.module, CallSite.address] at hlook
  simp only [print_call_tree, print_call_tree_list, hlook, hex, if_pos]

/-- Rendering a forest with an excluded call site anywhere in a sibling list
equals rendering the forest with that call site (and so its whole subtree)
removed. -/
theorem print_erase_excluded {tbl : SymTable} {excl : List (Str → Bool)}
    {lim fuel : Nat} {c : CallSite} {symbol source_line : Str}
    (hlook : dictGet2 tbl c.module c.address = some (symbol, source_line))
    (hex : is_excluded excl symbol source_line = true) :
    ∀ pre rest, print_call_tree tbl excl lim (fuel + 1) (pre ++ c :: rest) =
      print_call_tree tbl excl lim (fuel + 1) (pre ++ rest) := by
  intro pre
  induction pre with
  | nil => intro rest; exact print_skip_excluded_head hlook hex
  | cons p pre ih =>
    intro rest
    obtain ⟨d, a, m, ch⟩ := p
    have ihl : ∀ r1, print_call_tree_list (print_call_tree tbl excl lim fuel) tbl excl lim
        (pre ++ c :: r1) =
        print_call_tree_list (print_call_tree tbl excl lim fuel) tbl excl lim (pre ++ r1) := by
      intro r1
      have := ih r1
      simpa only [print_call_tree] using this
    simp only [List.cons_append, print_call_tree, print_call_tree_list, List.append_eq]
    cases hlp : dictGet2 tbl m a with
    | none => rfl
    | some v =>
      obtain ⟨sym1, src1⟩ := v
      dsimp only
      by_cases hexc : is_excluded excl sym1 src1
      · rw [if_pos hexc, if_pos hexc]
        exact ihl rest
      · rw [if_neg hexc, if_neg hexc]
        cases hsub : (if d < lim ∨ lim = 0 then print_call_tree tbl excl lim fuel ch
            else some []) with
        | none => rfl
        | some sub =>
          rw [ihl rest]

theorem truncSpec_nil (lim : Nat) : truncSpec lim [] = [] := by
  simp [truncSpec]

theorem truncSpec_cons (lim d : Nat) (a m : Str) (ch rest : List CallSite) :
    truncSpec lim (CallSite.mk d a m ch :: rest) =
      if lim = 0 ∨ d ≤ lim then
        CallSite.mk d a m (truncSpec lim ch) :: truncSpec lim rest
      else truncSpec lim rest := by
  simp [truncSpec]

/-- Below the horizon everything is truncated away. -/
theorem truncSpec_eq_nil {lim pd : Nat} (hne : lim ≠ 0) (hle : lim ≤ pd) :
    ∀ ch, (∀ c ∈ ch, WFSite pd c) → truncSpec lim ch = [] := by
  intro ch
  induction ch with
  | nil => intro _; exact truncSpec_nil lim
  | cons c rest ih =>
    intro hwf
    have hwfc := hwf c (List.mem_cons_self _ _)
    cases hwfc with
    | intro _ a m ch1 hch =>
      rw [truncSpec_cons, if_neg (by omega)]
      exact ih (fun c1 hc1 => hwf c1 (List.mem_cons_of_mem _ hc1))

/-- With `depth = 0` (unbounded), nothing is truncated. -/
theorem truncSpec_zero : ∀ fuel forest, sizeOf forest ≤ fuel → truncSpec 0 forest = forest := by
  intro fuel
  induction fuel with
  | zero =>
    intro forest h
    cases forest with
    | nil => exact truncSpec_nil 0
    | cons c rest => simp at h
  | succ fuel ih =>
    intro forest h
    cases forest with
    | nil => exact truncSpec_nil 0
    | cons c rest =>
      obtain ⟨d, a, m, ch⟩ := c
      rw [truncSpec_cons, if_pos (Or.inl rfl)]
      have h1 : sizeOf ch ≤ fuel := by simp at h; omega
      have h2 : sizeOf rest ≤ fuel := by simp at h; omega
      rw [ih ch h1, ih rest h2]

/-- Depth gating on a well-formed forest is a truncation: rendering with a
depth limit equals rendering the depth-truncated forest without any limit.
The context invariant `lim = 0 ∨ pd < lim` says the current sibling level
(whose nodes have depth `pd + 1`) is still within the horizon. -/
theorem print_depth_gate (tbl : SymTable) (lim : Nat) : ∀ fuel pd forest,
    (∀ c ∈ forest, WFSite pd c) → (lim = 0 ∨ pd < lim) →
    print_call_tree tbl [] lim fuel forest =
      print_call_tree tbl [] 0 fuel (truncSpec lim forest) := by
  intro fuel
  induction fuel with
  | zero =>
    intro pd forest hwf hpd
    cases forest with
    | nil => rw [truncSpec_nil]; rfl
    | cons c rest =>
      have hwfc := hwf c (List.mem_cons_self _ _)
      cases hwfc with
      | intro _ a m ch hch =>
        rw [truncSpec_cons, if_pos (by omega)]
        rfl
  | succ fuel ihf =>
    intro pd forest hwf hpd
    induction forest with
    | nil => rw [truncSpec_nil]; rfl
    | cons c rest ihr =>
      have hwfc := hwf c (List.mem_cons_self _ _)
      cases hwfc with
      | intro _ a m ch hch =>
        have ihr' := ihr (fun c1 hc1 => hwf c1 (List.mem_cons_of_mem _ hc1))
        simp only [print_call_tree] at ihr'
        rw [truncSpec_cons, if_pos (by omega)]
        simp only [print_call_tree, print_call_tree_list]
        cases hl : dictGet2 tbl m a with
        | none => rfl
        | some v =>
          obtain ⟨sym, src⟩ := v
          dsimp only
          have hnex : ¬ (is_excluded [] sym src = true) := by simp [is_excluded]
          rw [if_neg hnex, if_neg hnex,
            if_pos (show pd + 1 < 0 ∨ True from Or.inr trivial)]
          by_cases hdes : pd + 1 < lim ∨ lim = 0
          · rw [if_pos hdes, ihf (pd + 1) ch hch (by omega)]
            cases hsub : print_call_tree tbl [] 0 fuel (truncSpec lim ch) with
            | none => rfl
            | some sub => rw [ihr']
          · rw [if_neg hdes]
            have hchn : truncSpec lim ch = [] :=
              truncSpec_eq_nil (by omega) (by omega) ch hch
            rw [hchn, print_call_tree_nil, ihr']

/-! ### Indentation round trip -/

theorem pyLstrip_replicate_space (n : Nat) (s : Str) :
    pyLstrip (List.replicate n ' ' ++ s) = pyLstrip s := by
  induction n with
  | zero => simp
  | succ n ih =>
    have hsp : (' ' : Char).isWhitespace = true := by decide
    have hstep : pyLstrip (' ' :: (List.replicate n ' ' ++ s))
        = pyLstrip (List.replicate n ' ' ++ s) := by
      simp [pyLstrip, List.dropWhile_cons, hsp]
    rw [List.replicate_succ, List.cons_append, hstep, ih]

theorem pyLstrip_cons_not_ws {c : Char} {s : Str} (h : c.isWhitespace = false) :
    pyLstrip (c :: s) = c :: s := by
  simp [pyLstrip, List.dropWhile_cons, h]

theorem beq_space_eq_false {c : Char} (h : c.isWhitespace = false) :
    (c == ' ') = false := by
  cases hc : c == ' ' with
  | false => rfl
  | true =>
    exfalso
    have hce : c = ' ' := by simpa using hc
    rw [hce] at h
    exact Bool.noConfusion h

theorem takeWhile_replicate_space {c : Char} (h : c.isWhitespace = false)
    (n : Nat) (s : Str) :
    (List.replicate n ' ' ++ c :: s).takeWhile (fun x => x == ' ')
      = List.replicate n ' ' := by
  induction n with
  | zero => simp [List.takeWhile_cons, beq_space_eq_false h]
  | succ n ih =>
    rw [List.replicate_succ, List.cons_append, List.takeWhile_cons]
    simp only [show ((' ' : Char) == ' ') = true from rfl, if_true, ih]

theorem splitFirstSpace_of_space : ∀ (xs ys : Str),
    ∃ pr, splitFirstSpace (xs ++ ' ' :: ys) = some pr := by
  intro xs
  induction xs with
  | nil => intro ys; exact ⟨([], ys), by simp [splitFirstSpace]⟩
  | cons c xs ih =>
    intro ys
    by_cases hc : c = ' '
    · exact ⟨([], xs ++ ' ' :: ys), by simp [splitFirstSpace, hc]⟩
    · obtain ⟨⟨pr1, pr2⟩, hpr⟩ := ih ys
      exact ⟨(c :: pr1, pr2), by simp [splitFirstSpace, hc, hpr]⟩

theorem split_input_line_eval {line stripped addr cdr : Str}
    (h1 : pyLstrip line = stripped)
    (h2 : splitFirstSpace stripped = some (addr, cdr)) :
    split_input_line line =
      some (1 + (line.length - stripped.length) / 2, addr, stripParens (pyStrip cdr)) := by
  simp only [split_input_line, h1, h2]

/-! ### Small-step evaluation lemmas for the parser -/

theorem parse_site_step {fuel : Nat} {lines : List Str} {i : Nat} {am : AddrMap}
    {line : Str} {d : Nat} {a m : Str} {r : Option (CallSite × Nat × AddrMap)}
    (hg : pyGet lines i = some line) (hs : split_input_line line = some (d, a, m))
    (h : parse_children fuel lines (i + 1) (update_global_address_map am a m) d a m [] = r) :
    parse_call_site_tree (fuel + 1) lines i am = r := by
  rw [parse_call_site_tree]
  simp only [hg, hs]
  exact h

theorem parse_children_end {fuel : Nat} {lines : List Str} {i : Nat} {am : AddrMap}
    {d0 : Nat} {a0 m0 : Str} {acc : List CallSite}
    (hg : pyGet lines i = none) :
    parse_children (fuel + 1) lines i am d0 a0 m0 acc =
      some (CallSite.mk d0 a0 m0 acc, i, am) := by
  rw [parse_children]
  simp only [hg]

theorem parse_children_go {fuel : Nat} {lines : List Str} {i : Nat} {am : AddrMap}
    {d0 : Nat} {a0 m0 : Str} {acc : List CallSite} {line : Str} {d : Nat} {a1 m1 : Str}
    {child : CallSite} {i2 : Nat} {am2 : AddrMap} {r : Option (CallSite × Nat × AddrMap)}
    (hg : pyGet lines i = some line) (hs : split_input_line line = some (d, a1, m1))
    (hd : ¬ d ≤ d0)
    (hsite : parse_call_site_tree fuel lines i am = some (child, i2, am2))
    (hrest : parse_children fuel lines i2 am2 d0 a0 m0 (acc ++ [child]) = r) :
    parse_children (fuel + 1) lines i am d0 a0 m0 acc = r := by
  rw [parse_children]
  simp only [hg, hs, if_neg hd, hsite]
  exact hrest

theorem parse_loop_step {fuel : Nat} {lines : List Str} {i : Nat} {ct : List CallSite}
    {am : AddrMap} {cs : CallSite} {i2 : Nat} {am2 : AddrMap}
    {r : Option (List CallSite × AddrMap)}
    (hi : i < lines.length)
    (hsite : parse_call_site_tree fuel lines i am = some (cs, i2, am2))
    (hrest : parse_input_file_loop fuel lines i2 (ct ++ [cs]) am2 = r) :
    parse_input_file_loop (fuel + 1) lines i ct am = r := by
  rw [parse_input_file_loop]
  simp only [if_pos hi, hsite]
  exact hrest

theorem parse_loop_end {fuel : Nat} {lines : List Str} {i : Nat} {ct : List CallSite}
    {am : AddrMap} (hi : ¬ i < lines.length) :
    parse_input_file_loop (fuel + 1) lines i ct am = some (ct, am) := by
  rw [parse_input_file_loop]
  simp only [if_neg hi]

/-- A two-line input whose second line decodes strictly deeper than the first
parses to a single root with a single direct child, however large the depth
jump is. -/
theorem parse_two {l0 l1 : Str} {d0 : Nat} {a0 m0 : Str} {d1 : Nat} {a1 m1 : Str}
    (h0 : split_input_line l0 = some (d0, a0, m0))
    (h1 : split_input_line l1 = some (d1, a1, m1))
    (hgt : d0 < d1) :
    parse_input_file emptyParsed [l0, l1] =
      some ⟨[CallSite.mk d0 a0 m0 [CallSite.mk d1 a1 m1 []]],
        update_global_address_map (update_global_address_map [] a0 m0) a1 m1, []⟩ := by
  have g0 : pyGet [l0, l1] 0 = some l0 := rfl
  have g1 : pyGet [l0, l1] 1 = some l1 := rfl
  have hchild : parse_call_site_tree 6 [l0, l1] 1 (update_global_address_map [] a0 m0) =
      some (CallSite.mk d1 a1 m1 [], 2,
        update_global_address_map (update_global_address_map [] a0 m0) a1 m1) := by
    refine parse_site_step g1 h1 ?_
    exact parse_children_end rfl
  have hrootchildren : parse_children 7 [l0, l1] 1 (update_global_address_map [] a0 m0)
      d0 a0 m0 [] =
      some (CallSite.mk d0 a0 m0 [CallSite.mk d1 a1 m1 []], 2,
        update_global_address_map (update_global_address_map [] a0 m0) a1 m1) := by
    refine parse_children_go g1 h1 (by omega) hchild ?_
    exact parse_children_end rfl
  have hroot : parse_call_site_tree 8 [l0, l1] 0 [] =
      some (CallSite.mk d0 a0 m0 [CallSite.mk d1 a1 m1 []], 2,
        update_global_address_map (update_global_address_map [] a0 m0) a1 m1) :=
    parse_site_step g0 h0 hrootchildren
  have hloop : parse_input_file_loop 9 [l0, l1] 0 [] [] =
      some ([CallSite.mk d0 a0 m0 [CallSite.mk d1 a1 m1 []]],
        update_global_address_map (update_global_address_map [] a0 m0) a1 m1) := by
    refine parse_loop_step (by simp) hroot ?_
    exact parse_loop_end (by simp)
  show (match parse_input_file_loop 9 [l0, l1] 0 [] [] with
    | none => none
    | some (ct, am) => some (⟨ct, am, []⟩ : ParsedInputFile)) = _
  rw [hloop]

/-- Decoding a line indented by `2 * k` spaces yields depth `k + 1`. -/
theorem split_jump (k : Nat) :
    split_input_line (List.replicate (2 * k) ' ' ++ "0xB (mod1)".data) =
      some (k + 1, "0xB".data, "mod1".data) := by
  have h1 : pyLstrip (List.replicate (2 * k) ' ' ++ "0xB (mod1)".data)
      = "0xB (mod1)".data := by
    rw [pyLstrip_replicate_space]
    rfl
  have h2 : splitFirstSpace "0xB (mod1)".data = some ("0xB".data, "(mod1)".data) := rfl
  rw [split_input_line_eval h1 h2]
  have h3 : stripParens (pyStrip ("(mod1)".data)) = "mod1".data := rfl
  have h6 : ("0xB (mod1)".data).length = 10 := rfl
  have h4 : (List.replicate (2 * k) ' ' ++ "0xB (mod1)".data).length = 2 * k + 10 := by
    rw [List.length_append, List.length_replicate, h6]
  rw [h3, h4, h6]
  have h5 : 1 + (2 * k + 10 - 10) / 2 = k + 1 := by omega
  rw [h5]

/-! ### Alignment of the symbolizer response -/

theorem pyGet_append_shift : ∀ (xs ys : List α) (k : Nat),
    pyGet (xs ++ ys) (xs.length + k) = pyGet ys k := by
  intro xs
  induction xs with
  | nil => intro ys k; simp [pyGet]
  | cons x xs ih =>
    intro ys k
    simp only [List.cons_append, List.length_cons]
    have harr : xs.length + 1 + k = (xs.length + k) + 1 := by omega
    rw [harr]
    simp only [pyGet]
    exact ih ys k

theorem find_blank_from_nonblank : ∀ (xs : List Str) (e : Nat) (ys : List Str),
    (∀ l ∈ xs, pyStrip l ≠ []) →
    find_blank_from (xs ++ ([] : Str) :: ys) e = e + xs.length := by
  intro xs
  induction xs with
  | nil =>
    intro e ys _
    simp [find_blank_from, show pyStrip ([] : Str) = [] from rfl]
  | cons l xs ih =>
    intro e ys hnb
    have hl : pyStrip l ≠ [] := hnb l (List.mem_cons_self _ _)
    simp only [List.cons_append, find_blank_from, if_neg hl, List.append_eq]
    rw [ih (e + 1) ys (fun l1 hl1 => hnb l1 (List.mem_cons_of_mem _ hl1))]
    simp only [List.length_cons]
    omega

theorem pyIndex_of_nat {l : List α} {k : Nat} (h : k < l.length) :
    pyIndex l (k : Int) = pyGet l k := by
  unfold pyIndex
  dsimp only
  have h0 : ¬ ((k : Int) < 0) := by omega
  rw [if_neg h0, if_pos ⟨by omega, by exact_mod_cast h⟩]
  simp

/-- Demultiplexing a response made of exactly one well-formed blank-terminated
segment per requested address. `done` is the already-consumed prefix of the
response buffer. -/
theorem symbolize_flatten : ∀ (segs : List (List Str × Str × Str)) (addrs : List Str)
    (done : List Str),
    segs.length = addrs.length →
    (∀ t ∈ segs, (∀ l ∈ t.1, pyStrip l ≠ []) ∧ pyStrip t.2.1 ≠ [] ∧ pyStrip t.2.2 ≠ []) →
    symbolize_module (done ++ flattenSegs segs) addrs done.length =
      some (addrs.zip (segs.map (fun t => (t.2.1, t.2.2)))) := by
  intro segs
  induction segs with
  | nil =>
    intro addrs done hlen hnb
    cases addrs with
    | nil => rfl
    | cons a rest => simp at hlen
  | cons t segs ih =>
    intro addrs done hlen hnb
    cases addrs with
    | nil => simp at hlen
    | cons a addrs =>
      obtain ⟨body, sym, src⟩ := t
      have hnbh := hnb (body, sym, src) (List.mem_cons_self _ _)
      have hflat : flattenSegs ((body, sym, src) :: segs)
          = (body ++ [sym, src]) ++ ([] : Str) :: flattenSegs segs := by
        simp [flattenSegs, List.append_assoc]
      have hnbseg : ∀ l ∈ body ++ [sym, src], pyStrip l ≠ [] := by
        intro l hl
        rcases List.mem_append.1 hl with hl | hl
        · exact hnbh.1 l hl
        · rcases List.mem_cons.1 hl with rfl | hl
          · exact hnbh.2.1
          · rcases List.mem_cons.1 hl with rfl | hl
            · exact hnbh.2.2
            · simp at hl
      have hdrop : (done ++ flattenSegs ((body, sym, src) :: segs)).drop done.length
          = flattenSegs ((body, sym, src) :: segs) := List.drop_left _ _
      have hend : find_blank_from
            ((done ++ flattenSegs ((body, sym, src) :: segs)).drop done.length) done.length
          = done.length + (body.length + 2) := by
        rw [hdrop, hflat, find_blank_from_nonblank _ _ _ hnbseg]
        simp
      have hsplit : done ++ flattenSegs ((body, sym, src) :: segs)
          = (done ++ body) ++ (sym :: src :: ([] : Str) :: flattenSegs segs) := by
        rw [hflat]
        simp [List.append_assoc]
      have hsym : pyGet (done ++ flattenSegs ((body, sym, src) :: segs))
          (done.length + body.length) = some sym := by
        rw [hsplit, show done.length + body.length = (done ++ body).length + 0 by simp,
          pyGet_append_shift]
        rfl
      have hsrc : pyGet (done ++ flattenSegs ((body, sym, src) :: segs))
          (done.length + body.length + 1) = some src := by
        rw [hsplit, show done.length + body.length + 1 = (done ++ body).length + 1 by simp,
          pyGet_append_shift]
        rfl
      have hlenfull : (done ++ flattenSegs ((body, sym, src) :: segs)).length
          = done.length + body.length + 3 + (flattenSegs segs).length := by
        rw [hflat]
        simp [List.length_append]
        omega
      have hdone2 : done ++ flattenSegs ((body, sym, src) :: segs)
          = (done ++ ((body ++ [sym, src]) ++ [([] : Str)])) ++ flattenSegs segs := by
        rw [hflat]
        simp [List.append_assoc]
      have hdone2len : (done ++ ((body ++ [sym, src]) ++ [([] : Str)])).length
          = done.length + (body.length + 2) + 1 := by
        simp [List.length_append]
        omega
      have hrec := ih addrs (done ++ ((body ++ [sym, src]) ++ [([] : Str)]))
        (by simpa using hlen) (fun t1 ht1 => hnb t1 (List.mem_cons_of_mem _ ht1))
      rw [← hdone2, hdone2len] at hrec
      rw [symbolize_module]
      simp only [get_output_line_range]
      rw [hend]
      have hc1 : ((done.length + (body.length + 2) : Nat) : Int) - 2
          = ((done.length + body.length : Nat) : Int) := by push_cast; ring
      have hc2 : ((done.length + (body.length + 2) : Nat) : Int) - 1
          = ((done.length + body.length + 1 : Nat) : Int) := by push_cast; ring
      rw [hc1, hc2, pyIndex_of_nat (by omega), pyIndex_of_nat (by omega), hsym, hsrc, hrec]
      rfl

/-! ### The claims -/

/-- C1: the spec demands that a symbolizer response with fewer
blank-line-terminated segments than requested addresses fail with
UnderflowError and never yield a partial or misaligned symbol table.  The
code has no such check: for two requested addresses and a response holding a
single segment (`sym1\nsrc1\n\n`, split into four lines), the gateway loop
silently assigns the second address the previous segment's source line as its
symbol and the blank terminator as its source location — a misaligned table,
not a failure. -/
theorem c1_underflow_not_detected :
    symbolize_module ["sym1".data, "src1".data, [], []] ["0x1".data, "0x2".data] 0
      = some [("0x1".data, ("sym1".data, "src1".data)),
              ("0x2".data, ("src1".data, []))] := rfl

/-- C2 counterexample: the claim fails as stated.  A nested call site in an
excluded module (`0xB` in `mod2` below a surviving `mod1` root) survives the
Module Filter, yet `mod2` is dropped from the address map, so after the
gateway its `(module, address)` pair has no symbol-table entry and rendering
fails (KeyError, modelled as `none`). -/
theorem c2_counterexample :
    pipeline [fun m => decide (m = "mod2".data)]
        (fun m => if m = "mod1".data then ["symA".data, "srcA".data, [], []] else [])
        ["0xA (mod1)".data, "  0xB (mod2)".data]
      = some ⟨[CallSite.mk 1 "0xA".data "mod1".data
                 [CallSite.mk 2 "0xB".data "mod2".data []]],
          [("mod1".data, ["0xA".data])],
          [("mod1".data, [("0xA".data, ("symA".data, "srcA".data))])]⟩ ∧
    Subsite (CallSite.mk 2 "0xB".data "mod2".data [])
      (CallSite.mk 1 "0xA".data "mod1".data [CallSite.mk 2 "0xB".data "mod2".data []]) ∧
    dictGet2 [("mod1".data, [("0xA".data, ("symA".data, "srcA".data))])]
      "mod2".data "0xB".data = (none : Option (Str × Str)) ∧
    print_call_tree [("mod1".data, [("0xA".data, ("symA".data, "srcA".data))])] [] 0 3
      [CallSite.mk 1 "0xA".data "mod1".data [CallSite.mk 2 "0xB".data "mod2".data []]]
      = none := by
  refine ⟨rfl, ?_, rfl, rfl⟩
  exact Subsite.step _ _ 1 "0xA".data "mod1".data _ (List.mem_cons_self _ _) (Subsite.refl _)

/-- C2 (amended): after the Symbolizer Gateway runs on the filtered state,
every call site remaining in the forest **whose own module is not excluded**
has its `(module, address)` pair present in the symbol table; a nested call
site whose module is excluded may miss, and rendering then fails loudly
(see the counterexample). -/
theorem c2_amended_symbol_table_covers {lines : List Str} {pats : List (Str → Bool)}
    {responses : Str → List Str} {st st2 : ParsedInputFile}
    (hparse : parse_input_file emptyParsed lines = some st)
    (hsym : run_llvm_symbolizer responses (apply_module_filters pats st) = some st2)
    {root : CallSite} (hroot : root ∈ st2.call_tree)
    {s : CallSite} (hsub : Subsite s root)
    (hmod : is_module_excluded pats s.module = false) :
    ∃ v, dictGet2 st2.symbol_table s.module s.address = some v := by
  unfold run_llvm_symbolizer at hsym
  cases hall : symbolize_all responses
      (apply_module_filters pats st).addresses_by_module
      (apply_module_filters pats st).symbol_table with
  | none => rw [hall] at hsym; exact Option.noConfusion hsym
  | some tbl =>
    rw [hall] at hsym
    cases hsym
    have hroot1 : root ∈ (apply_module_filters pats st).call_tree := hroot
    have hroot2 : root ∈ st.call_tree := List.mem_of_mem_filter hroot1
    rcases parse_input_file_roots hparse root hroot2 with hin | hfresh
    · simp [emptyParsed] at hin
    · obtain ⟨j, line, hj, hjs⟩ := hfresh.2 s hsub
      have hmem : memAM st.addresses_by_module s.module s.address := by
        obtain ⟨_, _, h2, _, _⟩ := parse_input_file_spec hparse
        rw [h2]
        rw [memAM_updFold]
        exact Or.inr ⟨line, mem_iff_pyGet.2 ⟨j, hj⟩, s.depth, hjs⟩
      obtain ⟨aset, hget, hain⟩ := hmem
      have hgetf : dictGet (apply_module_filters pats st).addresses_by_module s.module
          = some aset := by
        show dictGet (st.addresses_by_module.filter
          (fun x => !is_module_excluded pats x.1)) s.module = some aset
        rw [dictGet_filter_not_excluded hmod, hget]
      have hgood : AMGood st.addresses_by_module := by
        obtain ⟨_, _, h2, _, _⟩ := parse_input_file_spec hparse
        rw [h2]
        exact AMGood_updFold ⟨by simp [emptyParsed], by simp [emptyParsed]⟩
      have hknodup : ((apply_module_filters pats st).addresses_by_module.map
          Prod.fst).Nodup := by
        refine List.Nodup.sublist ?_ hgood.1
        exact List.Sublist.map _ (List.filter_sublist _)
      obtain ⟨mtbl, hmt, hkeys⟩ := symbolize_all_lookup _ _ _ hknodup hall s.module aset
        (dictGet_mem hgetf)
      obtain ⟨v, hv⟩ := dictGet_of_mem_keys (t := mtbl) (by rw [hkeys]; exact hain)
      refine ⟨v, ?_⟩
      show dictGet2 tbl s.module s.address = some v
      unfold dictGet2
      rw [hmt]
      exact hv

/-- C2 witness: a concrete pipeline run in which the surviving root (module
not excluded) has its entry. -/
theorem c2_amended_witness :
    parse_input_file emptyParsed ["0xA (mod1)".data] =
      some ⟨[CallSite.mk 1 "0xA".data "mod1".data []], [("mod1".data, ["0xA".data])], []⟩ ∧
    run_llvm_symbolizer (fun _ => ["symA".data, "srcA".data, [], []])
      (apply_module_filters []
        ⟨[CallSite.mk 1 "0xA".data "mod1".data []], [("mod1".data, ["0xA".data])], []⟩) =
      some ⟨[CallSite.mk 1 "0xA".data "mod1".data []], [("mod1".data, ["0xA".data])],
        [("mod1".data, [("0xA".data, ("symA".data, "srcA".data))])]⟩ ∧
    ∃ v, dictGet2 [("mod1".data, [("0xA".data, ("symA".data, "srcA".data))])]
      "mod1".data "0xA".data = some v := by
  refine ⟨rfl, rfl, ?_⟩
  exact @c2_amended_symbol_table_covers ["0xA (mod1)".data] []
    (fun _ => ["symA".data, "srcA".data, [], []])
    ⟨[CallSite.mk 1 "0xA".data "mod1".data []], [("mod1".data, ["0xA".data])], []⟩
    ⟨[CallSite.mk 1 "0xA".data "mod1".data []], [("mod1".data, ["0xA".data])],
      [("mod1".data, [("0xA".data, ("symA".data, "srcA".data))])]⟩
    rfl rfl (CallSite.mk 1 "0xA".data "mod1".data []) (List.mem_cons_self _ _)
    (CallSite.mk 1 "0xA".data "mod1".data []) (Subsite.refl _) rfl

/-- C10: the Call Tree Builder attaches a line that jumps more than one depth
level as a direct child, without synthesizing intermediate levels and without
an error: the only guaranteed invariant is `child.depth > parent.depth`
(`SiteInv`), and for every `k ≥ 1` the two-line input `jump_lines k` produces
a root of depth 1 with a direct child of depth `k + 1` (difference `k`). -/
theorem c10_depth_jump :
    (∀ lines st, parse_input_file emptyParsed lines = some st →
      ∀ root ∈ st.call_tree, SiteInv root) ∧
    (∀ k, 1 ≤ k → parse_input_file emptyParsed (jump_lines k) =
      some ⟨[CallSite.mk 1 "0xA".data "mod1".data
               [CallSite.mk (k + 1) "0xB".data "mod1".data []]],
            [("mod1".data, ["0xA".data, "0xB".data])], []⟩) := by
  constructor
  · intro lines st h root hroot
    rcases parse_input_file_roots h root hroot with hin | hfresh
    · simp [emptyParsed] at hin
    · exact hfresh.1
  · intro k hk
    have h0 : split_input_line "0xA (mod1)".data = some (1, "0xA".data, "mod1".data) := rfl
    have hpt := parse_two h0 (split_jump k) (by omega)
    have hupd : update_global_address_map
        (update_global_address_map [] "0xA".data "mod1".data) "0xB".data "mod1".data
        = [("mod1".data, ["0xA".data, "0xB".data])] := rfl
    rw [hupd] at hpt
    rw [jump_lines]
    exact hpt

/-- C10 witness at `k = 3`: depth jump of 3 between parent and direct child,
and the invariant holds for that parse. -/
theorem c10_witness :
    parse_input_file emptyParsed (jump_lines 3) =
      some ⟨[CallSite.mk 1 "0xA".data "mod1".data
               [CallSite.mk 4 "0xB".data "mod1".data []]],
            [("mod1".data, ["0xA".data, "0xB".data])], []⟩ ∧
    SiteInv (CallSite.mk 1 "0xA".data "mod1".data
      [CallSite.mk 4 "0xB".data "mod1".data []]) := by
  have h := c10_depth_jump
  have hp := h.2 3 (by omega)
  refine ⟨hp, ?_⟩
  exact h.1 (jump_lines 3) _ hp _ (List.mem_cons_self _ _)

theorem truncSpec_one_roots : ∀ forest : List CallSite,
    (∀ c ∈ forest, WFSite 0 c) →
    truncSpec 1 forest = forest.map (fun c => CallSite.mk c.depth c.address c.module []) := by
  intro forest
  induction forest with
  | nil => intro _; simp [truncSpec_nil]
  | cons c rest ih =>
    intro hwf
    have hc := hwf c (List.mem_cons_self _ _)
    cases hc with
    | intro _ a m ch hch =>
      rw [truncSpec_cons, if_pos (Or.inr (by omega)),
        truncSpec_eq_nil (by omega) (by omega) ch hch,
        ih (fun c1 hc1 => hwf c1 (List.mem_cons_of_mem _ hc1))]
      simp [CallSite.depth, CallSite.address, CallSite.module]

/-- C3 counterexample: the claim fails as stated.  With the depth limit set
to 2, a call site of depth 6 (attached directly below a depth-1 root by a
depth jump in the input) is still rendered: the renderer gates descent on the
parent's depth only, and prints any node it reaches regardless of that node's
own depth. -/
theorem c3_counterexample :
    pipeline [] (fun _ => ["symA".data, "srcA".data, [],
        "symB".data, "srcB".data, [], []])
        ["0xA (mod1)".data, "          0xB (mod1)".data]
      = some ⟨[CallSite.mk 1 "0xA".data "mod1".data
                 [CallSite.mk 6 "0xB".data "mod1".data []]],
          [("mod1".data, ["0xA".data, "0xB".data])],
          [("mod1".data, [("0xA".data, ("symA".data, "srcA".data)),
                          ("0xB".data, ("symB".data, "srcB".data))])]⟩ ∧
    print_call_tree
      [("mod1".data, [("0xA".data, ("symA".data, "srcA".data)),
                      ("0xB".data, ("symB".data, "srcB".data))])] [] 2 3
      [CallSite.mk 1 "0xA".data "mod1".data [CallSite.mk 6 "0xB".data "mod1".data []]]
      = some ["symA (srcA)".data, "          symB (srcB)".data] ∧
    Subsite (CallSite.mk 6 "0xB".data "mod1".data [])
      (CallSite.mk 1 "0xA".data "mod1".data [CallSite.mk 6 "0xB".data "mod1".data []]) ∧
    (CallSite.mk 6 "0xB".data "mod1".data []).depth = 6 ∧ (0 : Nat) < 2 ∧ (2 : Nat) < 6 ∧
    fmtLine (((CallSite.mk 6 "0xB".data "mod1".data []).depth - 1) * 2) "symB".data "srcB".data
      = "          symB (srcB)".data := by
  refine ⟨rfl, rfl, ?_, rfl, by omega, by omega, rfl⟩
  exact Subsite.step _ _ 1 "0xA".data "mod1".data _ (List.mem_cons_self _ _) (Subsite.refl _)

/-- C3 (amended): for a **well-formed** forest (roots of depth 1, each child
exactly one deeper than its parent — the shape produced by properly indented
input), depth gating is truncation: rendering with limit `lim` equals
unbounded rendering of the forest with everything deeper than `lim` removed;
limit 0 truncates nothing (full tree rendered unconditionally), and limit 1
keeps exactly the root call sites with all children removed (so only roots
are rendered, at indentation `(1 - 1) * 2 = 0`).  On forests with depth
jumps the original claim fails (see the counterexample). -/
theorem c3_amended_depth_gate {tbl : SymTable} {lim : Nat} {forest : List CallSite}
    (hwf : ∀ c ∈ forest, WFSite 0 c) :
    (∀ fuel, print_call_tree tbl [] lim fuel forest =
      print_call_tree tbl [] 0 fuel (truncSpec lim forest)) ∧
    truncSpec 0 forest = forest ∧
    truncSpec 1 forest = forest.map (fun c => CallSite.mk c.depth c.address c.module []) := by
  refine ⟨fun fuel => print_depth_gate tbl lim fuel 0 forest hwf (by omega), ?_, ?_⟩
  · exact truncSpec_zero (sizeOf forest) forest (le_refl _)
  · exact truncSpec_one_roots forest hwf

/-- C3 witness: a concrete well-formed two-level forest rendered with limit 1
equals the unbounded rendering of its truncation (roots only, no children). -/
theorem c3_amended_witness :
    (∀ c ∈ [CallSite.mk 1 "0xA".data "mod1".data
        [CallSite.mk 2 "0xB".data "mod1".data []]], WFSite 0 c) ∧
    print_call_tree
      [("mod1".data, [("0xA".data, ("symA".data, "srcA".data)),
                      ("0xB".data, ("symB".data, "srcB".data))])] [] 1 2
      [CallSite.mk 1 "0xA".data "mod1".data [CallSite.mk 2 "0xB".data "mod1".data []]]
      = print_call_tree
        [("mod1".data, [("0xA".data, ("symA".data, "srcA".data)),
                        ("0xB".data, ("symB".data, "srcB".data))])] [] 0 2
        (truncSpec 1 [CallSite.mk 1 "0xA".data "mod1".data
          [CallSite.mk 2 "0xB".data "mod1".data []]]) := by
  have hwf : ∀ c ∈ [CallSite.mk 1 "0xA".data "mod1".data
      [CallSite.mk 2 "0xB".data "mod1".data []]], WFSite 0 c := by
    intro c hc
    rcases List.mem_singleton.1 hc with rfl
    refine WFSite.intro 0 "0xA".data "mod1".data _ ?_
    intro c1 hc1
    rcases List.mem_singleton.1 hc1 with rfl
    exact WFSite.intro 1 "0xB".data "mod1".data [] (by simp)
  exact ⟨hwf, (c3_amended_depth_gate hwf).1 2⟩

theorem pyGet_zip {l1 : List α} {l2 : List β} : ∀ {i : Nat} {x : α} {y : β},
    pyGet l1 i = some x → pyGet l2 i = some y → pyGet (l1.zip l2) i = some (x, y) := by
  induction l1 generalizing l2 with
  | nil => intro i x y h1 _; exact Option.noConfusion h1
  | cons a l1 ih =>
    intro i x y h1 h2
    cases l2 with
    | nil => exact Option.noConfusion h2
    | cons b l2 =>
      cases i with
      | zero =>
        cases h1
        cases h2
        rfl
      | succ i => exact ih h1 h2

theorem pyGet_map {f : α → β} {l : List α} : ∀ {i : Nat} {x : α},
    pyGet l i = some x → pyGet (l.map f) i = some (f x) := by
  induction l with
  | nil => intro i x h; exact Option.noConfusion h
  | cons a l ih =>
    intro i x h
    cases i with
    | zero => cases h; rfl
    | succ i => exact ih h

/-- C4: given one well-formed blank-line-terminated segment per requested
address (each segment `body ++ [symbol, source]` of non-blank lines, the
addresses coming from a set and hence duplicate-free), the gateway assembles
a table with exactly `N` entries whose i-th key is the i-th address sent and
whose i-th value is the pair of the last two lines of the i-th segment
(symbol, then source location). -/
theorem c4_gateway_alignment (addrs : List Str) (segs : List (List Str × Str × Str))
    (hnd : addrs.Nodup)
    (hlen : segs.length = addrs.length)
    (hnb : ∀ t ∈ segs, (∀ l ∈ t.1, pyStrip l ≠ []) ∧ pyStrip t.2.1 ≠ [] ∧
      pyStrip t.2.2 ≠ []) :
    symbolize_module (flattenSegs segs) addrs 0 =
      some (addrs.zip (segs.map (fun t => (t.2.1, t.2.2)))) ∧
    (addrs.zip (segs.map (fun t => (t.2.1, t.2.2)))).length = addrs.length ∧
    (addrs.zip (segs.map (fun t => (t.2.1, t.2.2)))).map Prod.fst = addrs ∧
    ((addrs.zip (segs.map (fun t => (t.2.1, t.2.2)))).map Prod.fst).Nodup ∧
    (∀ i a t, pyGet addrs i = some a → pyGet segs i = some t →
      pyGet (addrs.zip (segs.map (fun t => (t.2.1, t.2.2)))) i =
        some (a, (t.2.1, t.2.2))) := by
  have hmf : (addrs.zip (segs.map (fun t => (t.2.1, t.2.2)))).map Prod.fst = addrs :=
    List.map_fst_zip _ _ (by simp [hlen])
  refine ⟨?_, by simp [hlen], hmf, by rw [hmf]; exact hnd, ?_⟩
  · have h := symbolize_flatten segs addrs [] hlen hnb
    simpa using h
  · intro i a t h1 h2
    exact pyGet_zip h1 (pyGet_map h2)

/-- C4 witness: two addresses, two synthetic segments (the first with an
extra inlined frame line), assembled in order. -/
theorem c4_witness :
    (["0x1".data, "0x2".data] : List Str).Nodup ∧
    symbolize_module
      (flattenSegs [(["inline1".data], "sym1".data, "f1.c:1".data),
                    ([], "sym2".data, "f2.c:2".data)])
      ["0x1".data, "0x2".data] 0
      = some [("0x1".data, ("sym1".data, "f1.c:1".data)),
              ("0x2".data, ("sym2".data, "f2.c:2".data))] := by
  refine ⟨by decide, ?_⟩
  exact (c4_gateway_alignment ["0x1".data, "0x2".data]
    [(["inline1".data], "sym1".data, "f1.c:1".data), ([], "sym2".data, "f2.c:2".data)]
    (by decide) rfl (by decide)).1

/-- C5: for every successfully parsed input, the per-module address sets
contain exactly the `(module, address)` pairs decoded from the input lines —
nothing dropped, nothing invented — and every module's set is duplicate-free
even when the same line content occurs twice or a line is decoded twice by
the depth look-ahead. -/
theorem c5_address_map_complete {lines : List Str} {st : ParsedInputFile}
    (h : parse_input_file emptyParsed lines = some st) :
    (∀ m a, memAM st.addresses_by_module m a ↔
      ∃ line ∈ lines, ∃ d, split_input_line line = some (d, a, m)) ∧
    (∀ p ∈ st.addresses_by_module, p.2.Nodup) := by
  obtain ⟨roots, h1, h2, h3, h4⟩ := parse_input_file_spec h
  constructor
  · intro m a
    rw [h2, memAM_updFold]
    simp [memAM, emptyParsed, dictGet]
  · intro p hp
    have hgood : AMGood (updFold emptyParsed.addresses_by_module lines) :=
      AMGood_updFold ⟨by simp [emptyParsed], by simp [emptyParsed]⟩
    rw [h2] at hp
    exact hgood.2 p hp

/-- C5 witness: the spec's concrete scenario, with the duplicate-free sets
spelled out; the iff instantiated at `(mod1, 0xBB)`. -/
theorem c5_witness :
    parse_input_file emptyParsed
        ["0xAA (mod1)".data, "  0xBB (mod1)".data, "0xCC (mod2)".data] =
      some ⟨[CallSite.mk 1 "0xAA".data "mod1".data
               [CallSite.mk 2 "0xBB".data "mod1".data []],
             CallSite.mk 1 "0xCC".data "mod2".data []],
            [("mod1".data, ["0xAA".data, "0xBB".data]), ("mod2".data, ["0xCC".data])],
            []⟩ ∧
    (memAM [("mod1".data, ["0xAA".data, "0xBB".data]), ("mod2".data, ["0xCC".data])]
        "mod1".data "0xBB".data ↔
      ∃ line ∈ ["0xAA (mod1)".data, "  0xBB (mod1)".data, "0xCC (mod2)".data],
        ∃ d, split_input_line line = some (d, "0xBB".data, "mod1".data)) ∧
    (∀ p ∈ ([("mod1".data, ["0xAA".data, "0xBB".data]),
        ("mod2".data, ["0xCC".data])] : AddrMap), p.2.Nodup) := by
  have hp : parse_input_file emptyParsed
      ["0xAA (mod1)".data, "  0xBB (mod1)".data, "0xCC (mod2)".data] =
    some ⟨[CallSite.mk 1 "0xAA".data "mod1".data
             [CallSite.mk 2 "0xBB".data "mod1".data []],
           CallSite.mk 1 "0xCC".data "mod2".data []],
          [("mod1".data, ["0xAA".data, "0xBB".data]), ("mod2".data, ["0xCC".data])],
          []⟩ := rfl
  have h := c5_address_map_complete hp
  exact ⟨hp, h.1 "mod1".data "0xBB".data, h.2⟩

/-- C6: a call site at any position in a sibling list whose looked-up symbol
or source location is matched by some exclusion pattern is skipped together
with its entire subtree: the rendered output equals that of the forest with
the call site removed, with no condition on the descendants. -/
theorem c6_excluded_subtree_suppressed {tbl : SymTable} {excl : List (Str → Bool)}
    {lim fuel : Nat} {c : CallSite} {symbol source_line : Str} {p : Str → Bool}
    (hlook : dictGet2 tbl c.module c.address = some (symbol, source_line))
    (hp : p ∈ excl) (hm : p symbol = true ∨ p source_line = true) :
    ∀ pre rest, print_call_tree tbl excl lim (fuel + 1) (pre ++ c :: rest)
      = print_call_tree tbl excl lim (fuel + 1) (pre ++ rest) := by
  have hex : is_excluded excl symbol source_line = true := by
    rw [is_excluded, List.any_eq_true]
    refine ⟨p, hp, ?_⟩
    rcases hm with h | h <;> simp [h]
  exact print_erase_excluded hlook hex

/-- C6 witness: a concrete forest in which the excluded site has a
non-matching descendant; the outputs with and without the excluded subtree
coincide. -/
theorem c6_witness :
    dictGet2 ([("m".data, [("0xA".data, ("good".data, "g.c:1".data)),
                           ("0xB".data, ("bad".data, "b.c:2".data)),
                           ("0xC".data, ("fine".data, "f.c:3".data))])] : SymTable)
      "m".data "0xB".data = some ("bad".data, "b.c:2".data) ∧
    print_call_tree [("m".data, [("0xA".data, ("good".data, "g.c:1".data)),
                                 ("0xB".data, ("bad".data, "b.c:2".data)),
                                 ("0xC".data, ("fine".data, "f.c:3".data))])]
      [fun s => decide (s = "bad".data)] 0 2
      ([CallSite.mk 1 "0xA".data "m".data []] ++
        CallSite.mk 1 "0xB".data "m".data [CallSite.mk 2 "0xC".data "m".data []] ::
        [CallSite.mk 1 "0xA".data "m".data []])
      = print_call_tree [("m".data, [("0xA".data, ("good".data, "g.c:1".data)),
                                     ("0xB".data, ("bad".data, "b.c:2".data)),
                                     ("0xC".data, ("fine".data, "f.c:3".data))])]
        [fun s => decide (s = "bad".data)] 0 2
        ([CallSite.mk 1 "0xA".data "m".data []] ++
          [CallSite.mk 1 "0xA".data "m".data []]) := by
  refine ⟨rfl, ?_⟩
  exact @c6_excluded_subtree_suppressed
    [("m".data, [("0xA".data, ("good".data, "g.c:1".data)),
                 ("0xB".data, ("bad".data, "b.c:2".data)),
                 ("0xC".data, ("fine".data, "f.c:3".data))])]
    [fun s => decide (s = "bad".data)] 0 1
    (CallSite.mk 1 "0xB".data "m".data [CallSite.mk 2 "0xC".data "m".data []])
    "bad".data "b.c:2".data (fun s => decide (s = "bad".data))
    rfl (List.mem_singleton.2 rfl) (Or.inl (by decide))
    [CallSite.mk 1 "0xA".data "m".data []] [CallSite.mk 1 "0xA".data "m".data []]

/-- C7: a call site of depth `d ≥ 1` whose symbol begins with a
non-whitespace character renders with exactly `(d - 1) * 2` leading spaces,
and the Line Decoder's depth formula (1 plus the floor of the indentation
width over 2) applied to the rendered line yields `d` again. -/
theorem c7_indentation_round_trip (d : Nat) (source_line : Str) (c : Char) (s : Str)
    (hd : 1 ≤ d) (hws : c.isWhitespace = false) :
    (fmtLine ((d - 1) * 2) (c :: s) source_line).takeWhile (fun x => x == ' ')
        = List.replicate ((d - 1) * 2) ' ' ∧
    ∃ a m, split_input_line (fmtLine ((d - 1) * 2) (c :: s) source_line)
        = some (d, a, m) := by
  constructor
  · unfold fmtLine
    rw [List.append_assoc, List.cons_append]
    exact takeWhile_replicate_space hws _ _
  · obtain ⟨⟨addr, cdr⟩, hsp⟩ := splitFirstSpace_of_space (c :: s)
      ('(' :: (source_line ++ [')']))
    have h1 : pyLstrip (fmtLine ((d - 1) * 2) (c :: s) source_line)
        = (c :: s) ++ ' ' :: ('(' :: (source_line ++ [')'])) := by
      unfold fmtLine
      rw [List.append_assoc, pyLstrip_replicate_space, List.cons_append,
        pyLstrip_cons_not_ws hws]
    rw [split_input_line_eval h1 hsp]
    refine ⟨addr, stripParens (pyStrip cdr), ?_⟩
    have harith : 1 + ((fmtLine ((d - 1) * 2) (c :: s) source_line).length
        - ((c :: s) ++ ' ' :: ('(' :: (source_line ++ [')']))).length) / 2 = d := by
      simp [fmtLine, List.length_append, List.length_replicate]
      omega
    rw [harith]

/-- C7 witness at depth 3 with symbol `foo`: six leading spaces, decoded
depth 3. -/
theorem c7_witness :
    (1 : Nat) ≤ 3 ∧ ('f' : Char).isWhitespace = false ∧
    (fmtLine ((3 - 1) * 2) "foo".data "bar.c:7".data).takeWhile (fun x => x == ' ')
        = List.replicate ((3 - 1) * 2) ' ' ∧
    ∃ a m, split_input_line (fmtLine ((3 - 1) * 2) "foo".data "bar.c:7".data)
        = some (3, a, m) := by
  have h := c7_indentation_round_trip 3 "bar.c:7".data 'f' "oo".data (by omega) (by decide)
  exact ⟨by omega, by decide, h.1, h.2⟩

/-- C8: a module-exclusion pattern that matches a root's module removes that
root (and so its whole subtree) from the forest and removes the module's
entry from `addresses_by_module` — the gateway iterates exactly the remaining
entries, so no invocation is made for that module — while roots whose module
matches no pattern survive with their subtrees and address-map entries
unchanged. -/
theorem c8_module_filter {pats : List (Str → Bool)} {p : Str → Bool} {st : ParsedInputFile}
    {m : Str} (hp : p ∈ pats) :
    (p m = true →
      dictGet (apply_module_filters pats st).addresses_by_module m = none ∧
      m ∉ (apply_module_filters pats st).addresses_by_module.map Prod.fst) ∧
    (∀ root ∈ st.call_tree, p root.module = true →
      root ∉ (apply_module_filters pats st).call_tree) ∧
    (∀ root ∈ st.call_tree, is_module_excluded pats root.module = false →
      root ∈ (apply_module_filters pats st).call_tree) ∧
    (is_module_excluded pats m = false →
      dictGet (apply_module_filters pats st).addresses_by_module m
        = dictGet st.addresses_by_module m) := by
  refine ⟨?_, ?_, ?_, ?_⟩
  · intro hpm
    have hex : is_module_excluded pats m = true := by
      rw [is_module_excluded, List.any_eq_true]
      exact ⟨p, hp, hpm⟩
    exact ⟨dictGet_filter_excluded hex, not_mem_keys_filter hex⟩
  · intro root hroot hpm hmem
    have hex : is_module_excluded pats root.module = true := by
      rw [is_module_excluded, List.any_eq_true]
      exact ⟨p, hp, hpm⟩
    have hkept := (List.mem_filter.1 hmem).2
    rw [hex] at hkept
    simp at hkept
  · intro root hroot hex
    exact List.mem_filter.2 ⟨hroot, by simp [hex]⟩
  · intro hex
    exact dictGet_filter_not_excluded hex

/-- C8 witness: the spec's concrete scenario — excluding `mod2` removes the
second root and the `mod2` map entry, keeps the first root and `mod1`'s
entry. -/
theorem c8_witness :
    dictGet (apply_module_filters [fun mm => decide (mm = "mod2".data)]
        ⟨[CallSite.mk 1 "0xAA".data "mod1".data [CallSite.mk 2 "0xBB".data "mod1".data []],
          CallSite.mk 1 "0xCC".data "mod2".data []],
         [("mod1".data, ["0xAA".data, "0xBB".data]), ("mod2".data, ["0xCC".data])],
         []⟩).addresses_by_module "mod2".data = none ∧
    "mod2".data ∉ (apply_module_filters [fun mm => decide (mm = "mod2".data)]
        ⟨[CallSite.mk 1 "0xAA".data "mod1".data [CallSite.mk 2 "0xBB".data "mod1".data []],
          CallSite.mk 1 "0xCC".data "mod2".data []],
         [("mod1".data, ["0xAA".data, "0xBB".data]), ("mod2".data, ["0xCC".data])],
         []⟩).addresses_by_module.map Prod.fst ∧
    CallSite.mk 1 "0xCC".data "mod2".data [] ∉
      (apply_module_filters [fun mm => decide (mm = "mod2".data)]
        ⟨[CallSite.mk 1 "0xAA".data "mod1".data [CallSite.mk 2 "0xBB".data "mod1".data []],
          CallSite.mk 1 "0xCC".data "mod2".data []],
         [("mod1".data, ["0xAA".data, "0xBB".data]), ("mod2".data, ["0xCC".data])],
         []⟩).call_tree ∧
    CallSite.mk 1 "0xAA".data "mod1".data [CallSite.mk 2 "0xBB".data "mod1".data []] ∈
      (apply_module_filters [fun mm => decide (mm = "mod2".data)]
        ⟨[CallSite.mk 1 "0xAA".data "mod1".data [CallSite.mk 2 "0xBB".data "mod1".data []],
          CallSite.mk 1 "0xCC".data "mod2".data []],
         [("mod1".data, ["0xAA".data, "0xBB".data]), ("mod2".data, ["0xCC".data])],
         []⟩).call_tree ∧
    dictGet (apply_module_filters [fun mm => decide (mm = "mod2".data)]
        ⟨[CallSite.mk 1 "0xAA".data "mod1".data [CallSite.mk 2 "0xBB".data "mod1".data []],
          CallSite.mk 1 "0xCC".data "mod2".data []],
         [("mod1".data, ["0xAA".data, "0xBB".data]), ("mod2".data, ["0xCC".data])],
         []⟩).addresses_by_module "mod1".data = some ["0xAA".data, "0xBB".data] := by
  have h := @c8_module_filter [fun mm => decide (mm = "mod2".data)]
    (fun mm => decide (mm = "mod2".data))
    ⟨[CallSite.mk 1 "0xAA".data "mod1".data [CallSite.mk 2 "0xBB".data "mod1".data []],
      CallSite.mk 1 "0xCC".data "mod2".data []],
     [("mod1".data, ["0xAA".data, "0xBB".data]), ("mod2".data, ["0xCC".data])],
     []⟩ "mod2".data (List.mem_singleton.2 rfl)
  obtain ⟨ha, hb, hc, hd⟩ := h
  have ha1 := ha (by decide)
  refine ⟨ha1.1, ha1.2, ?_, ?_, ?_⟩
  · exact hb (CallSite.mk 1 "0xCC".data "mod2".data [])
      (by simp) (by decide)
  · exact hc (CallSite.mk 1 "0xAA".data "mod1".data [CallSite.mk 2 "0xBB".data "mod1".data []])
      (by simp) (by decide)
  · have := @c8_module_filter [fun mm => decide (mm = "mod2".data)]
      (fun mm => decide (mm = "mod2".data))
      ⟨[CallSite.mk 1 "0xAA".data "mod1".data [CallSite.mk 2 "0xBB".data "mod1".data []],
        CallSite.mk 1 "0xCC".data "mod2".data []],
       [("mod1".data, ["0xAA".data, "0xBB".data]), ("mod2".data, ["0xCC".data])],
       []⟩ "mod1".data (List.mem_singleton.2 rfl)
    rw [this.2.2.2 (by decide)]
    rfl

/-- C9 counterexample: on the empty line sequence two successive runs return
identical (empty) results, so the universally stated "two runs on identical
input do not produce equal results" fails at this input. -/
theorem c9_counterexample :
    (parse_input_file emptyParsed []).bind (fun st1 => parse_input_file st1 []) =
      parse_input_file emptyParsed [] ∧
    parse_input_file emptyParsed [] = some emptyParsed := ⟨rfl, rfl⟩

/-- C9 (amended): `parse_input_file` is not a pure function of its input:
`ParsedInputFile.call_tree`, `addresses_by_module` and `symbol_table` are
class-level shared objects (the threaded state below), so for two successive
successful calls on the same **non-empty** line sequence the second result
still contains the roots and per-module address sets accumulated by the
first, strictly extends the forest, and so differs from the first result. -/
theorem c9_amended_shared_state {lines : List Str} {st0 st1 st2 : ParsedInputFile}
    (hne : lines ≠ [])
    (h1 : parse_input_file st0 lines = some st1)
    (h2 : parse_input_file st1 lines = some st2) :
    (∃ new1, new1 ≠ [] ∧ st1.call_tree = st0.call_tree ++ new1) ∧
    (∃ new2, new2 ≠ [] ∧ st2.call_tree = st1.call_tree ++ new2) ∧
    st2 ≠ st1 ∧
    (∀ m a, memAM st1.addresses_by_module m a → memAM st2.addresses_by_module m a) := by
  obtain ⟨n1, e1, f1, _, g1⟩ := parse_input_file_spec h1
  obtain ⟨n2, e2, f2, _, g2⟩ := parse_input_file_spec h2
  refine ⟨⟨n1, g1 hne, e1⟩, ⟨n2, g2 hne, e2⟩, ?_, ?_⟩
  · intro heq
    have hct : st2.call_tree = st1.call_tree := by rw [heq]
    rw [e2] at hct
    have hl := congrArg List.length hct
    rw [List.length_append] at hl
    have hn0 : n2.length = 0 := by omega
    exact g2 hne (List.length_eq_zero.1 hn0)
  · intro m a hm
    rw [f2, memAM_updFold]
    exact Or.inl hm

/-- C9 witness: two successive runs on the same one-line input; the second
result has the first run's root duplicated and is different from the first
result. -/
theorem c9_witness :
    parse_input_file emptyParsed ["0xAA (mod1)".data] =
      some ⟨[CallSite.mk 1 "0xAA".data "mod1".data []],
        [("mod1".data, ["0xAA".data])], []⟩ ∧
    parse_input_file ⟨[CallSite.mk 1 "0xAA".data "mod1".data []],
        [("mod1".data, ["0xAA".data])], []⟩ ["0xAA (mod1)".data] =
      some ⟨[CallSite.mk 1 "0xAA".data "mod1".data [],
             CallSite.mk 1 "0xAA".data "mod1".data []],
            [("mod1".data, ["0xAA".data])], []⟩ ∧
    (⟨[CallSite.mk 1 "0xAA".data "mod1".data [],
       CallSite.mk 1 "0xAA".data "mod1".data []],
      [("mod1".data, ["0xAA".data])], []⟩ : ParsedInputFile) ≠
      ⟨[CallSite.mk 1 "0xAA".data "mod1".data []], [("mod1".data, ["0xAA".data])], []⟩ := by
  refine ⟨rfl, rfl, ?_⟩
  exact (@c9_amended_shared_state ["0xAA (mod1)".data] emptyParsed
    ⟨[CallSite.mk 1 "0xAA".data "mod1".data []], [("mod1".data, ["0xAA".data])], []⟩
    ⟨[CallSite.mk 1 "0xAA".data "mod1".data [], CallSite.mk 1 "0xAA".data "mod1".data []],
      [("mod1".data, ["0xAA".data])], []⟩
    (by simp) rfl rfl).2.2.1
